import Mathlib

/-!
Verification of the `nbtools/nbstat` table engine and its surrounding
utilities: a shallow embedding of `ResourceTable` (merge, update, unroll,
sort, set_index, split_by_index), `ResourceFormatter.included_only`,
`FiniteList` (bounded ring buffer with moving average) and
`ResourceInspector.cache_available`, together with theorems checking the
natural-language specification against the code.

Python dictionaries are embedded as insertion-ordered association lists,
Python values as a small inductive type (`None`, int, str, list-of-scalar),
fallible code as `Except String`.
-/

set_option maxRecDepth 8000

/-- Scalar Python values stored in table cells: `None`, integers, strings. -/
inductive Prim where
  | none
  | int (n : Int)
  | str (s : String)
deriving DecidableEq

/-- A Python value in a `ResourceEntry` cell: a scalar or a list of scalars
(the not-yet-unrolled multi-valued fields). -/
inductive PyVal where
  | prim (p : Prim)
  | list (l : List Prim)
deriving DecidableEq

/-- `isinstance(value, list)`. -/
def PyVal.isList : PyVal → Bool
  | .list _ => true
  | _ => false

/-- A `ResourceEntry`: a Python dict, i.e. an insertion-ordered association
list from column name to value. -/
abbrev Entry := List (String × PyVal)

/-- Keys of a dict in insertion order (`entry.keys()`). -/
def entryKeys (e : Entry) : List String := e.map Prod.fst

/-- Dict lookup (`entry[key]`): the value at the first occurrence of `key`,
`Option.none` when the key is absent (where Python raises `KeyError`). -/
def entryGet (e : Entry) (key : String) : Option PyVal :=
  match e with
  | [] => Option.none
  | p :: rest => if p.1 = key then some p.2 else entryGet rest key

/-- Dict item assignment `d[k] = v`: replace the value at an existing key,
otherwise append the new pair at the end (Python dict insertion order). -/
def dictInsert (d : Entry) (k : String) (v : PyVal) : Entry :=
  if k ∈ entryKeys d then d.map (fun p => if p.1 = k then (k, v) else p)
  else d ++ [(k, v)]

/-- `d.update(e)` / `{**d, **e}`: item assignment for every pair of `e`
in order. -/
def dictUpdate (d : Entry) (e : Entry) : Entry :=
  e.foldl (fun acc p => dictInsert acc p.1 p.2) d

/-- Whether a fallible computation raised (`Except.error`), i.e. the Python
code ended in an exception. -/
def exceptIsError : Except ε α → Bool
  | .error _ => true
  | .ok _ => false

instance {ε α : Type} [DecidableEq ε] [DecidableEq α] : DecidableEq (Except ε α) := by
  intro a b
  cases a with
  | ok x => cases b with
    | ok y => exact if h : x = y then isTrue (by rw [h]) else isFalse (by intro c; cases c; exact h rfl)
    | error f => exact isFalse (by intro c; cases c)
  | error e => cases b with
    | ok y => exact isFalse (by intro c; cases c)
    | error f => exact if h : e = f then isTrue (by rw [h]) else isFalse (by intro c; cases c; exact h rfl)

/-- `ResourceTable`: a list of entries. -/
structure ResourceTable where
  data : List Entry
deriving DecidableEq

/-- `ResourceTable.columns`: `None` for an empty table, else the keys of the
first entry. -/
def ResourceTable.columns (t : ResourceTable) : Option (List String) :=
  t.data.head?.map entryKeys

/-- One iteration of the outer loop of `ResourceTable.merge`: the inner loop
over `other` appends one merged entry per key match and records whether any
match happened; with no match the self entry is appended over the
all-`None` template. -/
def mergeRow (template : Entry) (se : Entry) (odata : List Entry)
    (skey okey : String) : List Entry :=
  let r := odata.foldl
    (fun (acc : List Entry × Bool) oe =>
      if entryGet se skey = entryGet oe okey then
        (acc.1 ++ [dictUpdate (dictUpdate template se) oe], true)
      else acc)
    ([], false)
  if r.2 then r.1 else [dictUpdate template se]

/-- `ResourceTable.merge(other, self_key, other_key)`. Checks that both key
columns exist (an empty table has columns `None`, on which the Python
membership test itself raises) and that the column sets are disjoint, then
joins each self entry with every key-matching other entry. -/
def ResourceTable.merge (t o : ResourceTable) (skey okey : String) :
    Except String ResourceTable :=
  match t.columns with
  | Option.none => .error "TypeError: argument of type NoneType is not iterable"
  | some scols =>
    if skey ∉ scols then .error "Key not found in self!"
    else match o.columns with
      | Option.none => .error "TypeError: argument of type NoneType is not iterable"
      | some ocols =>
        if okey ∉ ocols then .error "Key not found in other!"
        else if scols.any (fun c => c ∈ ocols) then
          .error "Column present in both tables!"
        else
          let template := dictUpdate (scols.map (fun k => (k, PyVal.prim Prim.none)))
            (ocols.map (fun k => (k, PyVal.prim Prim.none)))
          .ok ⟨t.data.foldl (fun acc se => acc ++ mergeRow template se o.data skey okey) []⟩

/-- One iteration of the outer loop of `ResourceTable.update`: the self
entry value at `skey` is read once, then every key-matching other entry
overwrites the entry in turn. -/
def updateRow (se : Entry) (odata : List Entry) (skey okey : String) : Entry :=
  let sv := entryGet se skey
  odata.foldl (fun e oe => if sv = entryGet oe okey then dictUpdate e oe else e) se

/-- `ResourceTable.update(other, self_key, other_key)`: checks both key
columns and that the columns of `other` are a subset of the columns of
`self`, then overwrites each self entry with every matching other entry. -/
def ResourceTable.update (t o : ResourceTable) (skey okey : String) :
    Except String ResourceTable :=
  match t.columns with
  | Option.none => .error "TypeError: argument of type NoneType is not iterable"
  | some scols =>
    if skey ∉ scols then .error "Key not found in self!"
    else match o.columns with
      | Option.none => .error "TypeError: argument of type NoneType is not iterable"
      | some ocols =>
        if okey ∉ ocols then .error "Key not found in other!"
        else if ¬ (ocols.all (fun c => c ∈ scols)) then
          .error "Columns of other should be a strict subset of self columns!"
        else .ok ⟨t.data.map (fun se => updateRow se o.data skey okey)⟩

/-- Lengths of the list-valued cells of an entry, in column order
(the `lens` list of `ResourceTable.unroll`). -/
def entryLens (e : Entry) : List Nat :=
  e.filterMap (fun p => match p.2 with | PyVal.list l => some l.length | _ => Option.none)

/-- Unrolling of a single entry (one iteration of the loop of
`ResourceTable.unroll`): the set of list lengths must have exactly one
element; a common length 0 produces one entry with list cells set to
`None`, a common length n produces n entries with the i-th list elements. -/
def unrollEntry (e : Entry) : Except String (List Entry) :=
  let lens := entryLens e
  if lens.dedup.length ≠ 1 then .error "Entry items have different lengths!"
  else
    let n := lens.headD 0
    if n = 0 then
      .ok [e.map (fun p => match p.2 with
        | PyVal.list _ => (p.1, PyVal.prim Prim.none)
        | v => (p.1, v))]
    else
      .ok ((List.range n).map (fun i => e.map (fun p => match p.2 with
        | PyVal.list l => (p.1, PyVal.prim (l.getD i Prim.none))
        | v => (p.1, v))))

/-- `ResourceTable.unroll()`: unroll every entry (the first failing entry
raises) and concatenate the results in entry order. -/
def ResourceTable.unroll (t : ResourceTable) : Except String ResourceTable := do
  let rows ← t.data.mapM unrollEntry
  pure ⟨rows.flatten⟩

/-- The per-key sign used by `ResourceTable.sort`: `-1` for a reversed key,
`+1` otherwise. -/
def pySign (rev : Bool) : Int := if rev then -1 else 1

/-- The numeric value of a cell as used by the `itemgetter` of
`ResourceTable.sort`: `None` cells are replaced by the per-key default.
Non-numeric or missing cells make Python raise; they are mapped to 0 here
and never occur in the claims. -/
def keyNum (v : Option PyVal) (default : Int) : Int :=
  match v with
  | some (PyVal.prim Prim.none) => default
  | some (PyVal.prim (Prim.int n)) => n
  | _ => 0

/-- The `itemgetter` of `ResourceTable.sort`: the tuple of
`sign * (value or default)` over the zipped keys, defaults and reverse
flags (Python `zip` truncates to the shortest argument). -/
def itemgetter (keys : List String) (defaults : List Int) (revs : List Bool)
    (e : Entry) : List Int :=
  (keys.zip (defaults.zip revs)).map
    (fun kdr => pySign kdr.2.2 * keyNum (entryGet e kdr.1) kdr.2.1)

/-- Lexicographic comparison of Python tuples of numbers, as used by
`list.sort(key=...)`. -/
def lexLe : List Int → List Int → Bool
  | [], _ => true
  | _ :: _, [] => false
  | a :: as, b :: bs => if a < b then true else if b < a then false else lexLe as bs

/-- `ResourceTable.sort` with already-parsed per-key parameter lists.
Python `list.sort` is a stable sort by the key function; it is embedded as
the stable `List.mergeSort` on the `itemgetter` tuples. -/
def ResourceTable.sort (t : ResourceTable) (keys : List String)
    (defaults : List Int) (revs : List Bool) : ResourceTable :=
  ⟨List.mergeSort t.data (fun a b =>
    lexLe (itemgetter keys defaults revs a) (itemgetter keys defaults revs b))⟩

/-- `ResourceTable.sort` with scalar parameters, wrapped into
one-element lists exactly as the parameter-parsing step of the code does. -/
def ResourceTable.sort1 (t : ResourceTable) (key : String) (default : Int)
    (rev : Bool) : ResourceTable :=
  t.sort [key] [default] [rev]

/-- A table with an index set: the reordered data plus the chosen index
column and the list of its distinct values in first-seen order. -/
structure IndexedTable where
  data : List Entry
  index : String
  index_values : List (Option PyVal)
deriving DecidableEq

/-- `ResourceTable.set_index(index)`: collect the distinct values of the
index column in first-seen order, then rebuild the data index value by
index value, keeping the original relative order inside each group. -/
def ResourceTable.set_index (t : ResourceTable) (idx : String) : IndexedTable :=
  let ivs := t.data.foldl
    (fun acc e => if entryGet e idx ∈ acc then acc else acc ++ [entryGet e idx]) []
  let d := ivs.foldl
    (fun acc v => acc ++ t.data.filter (fun e => entryGet e idx = v)) []
  ⟨d, idx, ivs⟩

/-- `ResourceTable._get_subtable(index_value)`: the entries whose index
column equals the given value. -/
def IndexedTable.get_subtable (it : IndexedTable) (v : Option PyVal) : ResourceTable :=
  ⟨it.data.filter (fun e => entryGet e it.index = v)⟩

/-- `ResourceTable.split_by_index()`: one subtable per index value, in
index-value order. -/
def IndexedTable.split_by_index (it : IndexedTable) : List ResourceTable :=
  it.index_values.map it.get_subtable

/-- `FiniteList`: a list with a capacity (`size`). The claims only exercise
integer contents. -/
structure FiniteList where
  size : Nat
  data : List Int
deriving DecidableEq

/-- `FiniteList.append`: when the length has reached the capacity, the
first element is popped before appending. -/
def FiniteList.append (fl : FiniteList) (x : Int) : FiniteList :=
  if fl.size ≤ fl.data.length then ⟨fl.size, fl.data.drop 1 ++ [x]⟩
  else ⟨fl.size, fl.data ++ [x]⟩

/-- Repeated `FiniteList.append` over a list of pushed values. -/
def FiniteList.extend (fl : FiniteList) (xs : List Int) : FiniteList :=
  xs.foldl FiniteList.append fl

/-- The last `n` elements of a list (Python `l[-n:]` for `n > 0`). -/
def takeLast (n : Nat) (l : List α) : List α := l.drop (l.length - n)

/-- Python `round` applied to the exact quotient `s / n` (`n > 0`): round
half to even, computed from the floor quotient and remainder. -/
def pyRoundDiv (s : Int) (n : Nat) : Int :=
  let q := Int.fdiv s n
  let r := s - q * n
  if 2 * r < n then q
  else if (n : Int) < 2 * r then q + 1
  else if q % 2 = 0 then q else q + 1

/-- `FiniteList.get_average(size)`: `size or self.size` (so a requested 0
falls back to the capacity), `None` unless the length exceeds `size // 2`,
else the rounded mean of the last `size` elements (Python `l[-0:]` is the
whole list). -/
def FiniteList.get_average (fl : FiniteList) (req : Nat) : Option Int :=
  let size := if req = 0 then fl.size else req
  if size / 2 < fl.data.length then
    let sub := if size = 0 then fl.data else takeLast size fl.data
    some (pyRoundDiv sub.sum sub.length)
  else Option.none

/-- A column of a `ResourceFormatter`: a table delimiter with its rank
(`TABLE_DELIMITER1` or `TABLE_DELIMITER2`, ordered by enumeration value) or
a plain resource named by a string. -/
inductive FColumn where
  | delim (rank : Nat)
  | res (id : String)
deriving DecidableEq

/-- Whether a resource name contains `TABLE_DELIMITER`. -/
def isDelim : FColumn → Bool
  | .delim _ => true
  | .res _ => false

/-- Python `max(resource, previous_resource, key=attrgetter)`: the first
argument wins ties. Only ever called on two delimiters. -/
def maxDelim (new prev : FColumn) : FColumn :=
  match new, prev with
  | .delim a, .delim b => if a < b then .delim b else .delim a
  | n, _ => n

/-- A formatter item: the resource and its `include` flag. The remaining
per-column display options play no role in the verified properties. -/
abbrev FItem := FColumn × Bool

/-- One iteration of the accumulating loop of `included_only`, on the
reversed accumulator (its head is `formatter[-1]`): a delimiter following a
delimiter replaces the previous item's resource by the stronger delimiter,
anything else is appended. -/
def collapseStep (racc : List FItem) (c : FItem) : List FItem :=
  match racc with
  | [] => [c]
  | p :: rest =>
    if isDelim c.1 && isDelim p.1 then (maxDelim c.1 p.1, p.2) :: rest
    else c :: p :: rest

/-- `ResourceFormatter.included_only`: keep the included columns, collapse
delimiter runs via `collapseStep`, then pop a trailing delimiter.
`Option.none` models the `IndexError` Python raises indexing `formatter[-1]`
when nothing was included. -/
def included_only (f : List FItem) : Option (List FItem) :=
  let racc := (f.filter (fun c => c.2)).foldl collapseStep []
  match racc with
  | [] => Option.none
  | last :: rest => some ((if isDelim last.1 then rest else last :: rest).reverse)

/-- The parameters recorded in the inspector cache when a view is stored. -/
structure CacheParams where
  name : String
  n_formatter : Nat
  sortFlag : Bool
  verbose : Int
deriving DecidableEq

/-- The inspector cache: the stored table (abstracted to an identifier),
the storage time and the recorded parameters. `Option.none` models the
initially empty cache dict. -/
structure CacheState where
  table_id : Nat
  time : Rat
  parameters : CacheParams
deriving DecidableEq

/-- The formatter fingerprint of `ResourceInspector`:
`sum(int(column['include']) for column in formatter)`, i.e. the number of
included columns. -/
def n_formatter_of (f : List FItem) : Nat := (f.filter (fun c => c.2)).length

/-- `ResourceInspector.cache_available`: the cache must exist, be no older
than `interval`, and match the request's view name, verbosity and
formatter fingerprint. -/
def cache_available (cache : Option CacheState) (now : Rat) (name : String)
    (f : List FItem) (verbose : Int) (interval : Rat) : Bool :=
  match cache with
  | Option.none => false
  | some c =>
    if interval < now - c.time then false
    else if name ≠ c.parameters.name then false
    else if verbose ≠ c.parameters.verbose then false
    else if n_formatter_of f ≠ c.parameters.n_formatter then false
    else true

/-- The cache gate of `ResourceInspector.get_view`: the cached table is
reused exactly when `use_cache` is set and `cache_available` holds for the
shrunk freshness window `interval * 0.8`. -/
def get_view_uses_cache (cache : Option CacheState) (now : Rat) (name : String)
    (f : List FItem) (verbose : Int) (use_cache : Bool) (interval : Rat) : Bool :=
  use_cache && cache_available cache now name f verbose (interval * (4 / 5))

/-! ### Specification-side definitions

The following definitions transcribe the wording of the specification (not
the code); they are compared with the code-side definitions above in
refinement theorems. -/

/-- Spec-side description of `update` as the specification words it: for
each self-row, the FIRST other-row whose `other_key` value equals the
self-row's `self_key` value overwrites the corresponding columns. -/
def updateSpecFirst (t o : ResourceTable) (skey okey : String) : ResourceTable :=
  ⟨t.data.map (fun se =>
    match (o.data.filter (fun oe => entryGet se skey = entryGet oe okey)).head? with
    | some oe => dictUpdate se oe
    | Option.none => se)⟩

/-- Amended description of `update`: for each self-row, the LAST matching
other-row overwrites the corresponding columns. -/
def updateSpecLast (t o : ResourceTable) (skey okey : String) : ResourceTable :=
  ⟨t.data.map (fun se =>
    match (o.data.filter (fun oe => entryGet se skey = entryGet oe okey)).getLast? with
    | some oe => dictUpdate se oe
    | Option.none => se)⟩

/-- Spec-side description of unrolling one entry that passed the
common-length check: with common length 0, one row with the list columns
set to null; with common length n, n rows where each list column
contributes its i-th element to the i-th row and every non-list column is
copied unchanged. -/
def unrollSpecEntry (e : Entry) : List Entry :=
  let n := (entryLens e).headD 0
  if n = 0 then
    [e.map (fun p => match p.2 with
      | PyVal.list _ => (p.1, PyVal.prim Prim.none)
      | v => (p.1, v))]
  else
    (List.range n).map (fun i => e.map (fun p => match p.2 with
      | PyVal.list l => (p.1, PyVal.prim (l.getD i Prim.none))
      | v => (p.1, v)))

/-- Spec-side first-seen deduplication: the distinct values of a column in
first-seen order. -/
def firstSeen (vals : List (Option PyVal)) : List (Option PyVal) :=
  vals.foldl (fun acc v => if v ∈ acc then acc else acc ++ [v]) []

/-- The rank of a formatter column: delimiter rank, 0 for non-delimiters. -/
def rankOf : FColumn → Nat
  | .delim r => r
  | .res _ => 0

/-- Spec-side description of delimiter collapsing: each maximal run of
consecutive delimiters is replaced by the single strongest delimiter of
the run (its rank being the maximum rank of the run, its `include` flag
that of the first run element); non-delimiter columns are kept in order. -/
def specCollapse : List FItem → List FItem
  | [] => []
  | c :: cs =>
    if isDelim c.1 then
      (FColumn.delim (((c :: cs.takeWhile (fun x => isDelim x.1)).map
        (fun x => rankOf x.1)).foldl Nat.max 0), c.2)
        :: specCollapse (cs.dropWhile (fun x => isDelim x.1))
    else c :: specCollapse cs
termination_by cs => cs.length
decreasing_by
  all_goals simp only [List.length_cons]
  · exact Nat.lt_succ_of_le (List.dropWhile_sublist _).length_le
  · exact Nat.lt_succ_self _

/-- Spec-side final step of `included_only`: drop a trailing delimiter from
the collapsed list. -/
def specIncludedOnly (f : List FItem) : List FItem :=
  let l := specCollapse (f.filter (fun c => c.2))
  match l.getLast? with
  | some c => if isDelim c.1 then l.dropLast else l
  | Option.none => l

/-- The list of currently active (included) formatter columns, used to
state what a faithful cache fingerprint would compare. -/
def activeResources (f : List FItem) : List FColumn :=
  (f.filter (fun c => c.2)).map (fun c => c.1)

/-- The ring-buffer scenario of the specification: 1005 pushes of the
increasing integers 0, 1, ..., 1004 into a buffer of capacity 1000. -/
def ringScenario : FiniteList :=
  FiniteList.extend ⟨1000, []⟩ ((List.range 1005).map Int.ofNat)

/-! ### Helper lemmas: dictionaries -/

theorem entryKeys_cons (p : String × PyVal) (e : Entry) :
    entryKeys (p :: e) = p.1 :: entryKeys e := rfl

theorem entryKeys_append (d e : Entry) :
    entryKeys (d ++ e) = entryKeys d ++ entryKeys e := by
  simp [entryKeys]

theorem entryKeys_map_val (f : String → PyVal → PyVal) (d : Entry) :
    entryKeys (d.map (fun p => (p.1, f p.1 p.2))) = entryKeys d := by
  induction d with
  | nil => rfl
  | cons p rest ih => simp only [List.map_cons, entryKeys_cons] at ih ⊢; rw [ih]

theorem entryGet_cons (p : String × PyVal) (e : Entry) (k : String) :
    entryGet (p :: e) k = if p.1 = k then some p.2 else entryGet e k := rfl

theorem entryGet_eq_none {e : Entry} {k : String} (h : k ∉ entryKeys e) :
    entryGet e k = Option.none := by
  induction e with
  | nil => rfl
  | cons p rest ih =>
    rw [entryKeys_cons, List.mem_cons, not_or] at h
    rw [entryGet_cons, if_neg (fun hh => h.1 hh.symm), ih h.2]

theorem entryGet_append (d e : Entry) (k : String) :
    entryGet (d ++ e) k = if k ∈ entryKeys d then entryGet d k else entryGet e k := by
  induction d with
  | nil => simp [entryKeys]
  | cons p rest ih =>
    by_cases h : p.1 = k
    · subst h
      simp [entryGet_cons, entryKeys_cons]
    · rw [List.cons_append, entryGet_cons, if_neg h, ih, entryGet_cons, entryKeys_cons]
      by_cases hm : k ∈ entryKeys rest
      · rw [if_pos hm, if_pos (List.mem_cons_of_mem _ hm), if_neg h]
      · rw [if_neg hm, if_neg]
        rw [List.mem_cons, not_or]
        exact ⟨fun hh => h hh.symm, hm⟩

theorem entryGet_map_val (f : String → PyVal → PyVal) (d : Entry) (k : String) :
    entryGet (d.map (fun p => (p.1, f p.1 p.2))) k = (entryGet d k).map (f k) := by
  induction d with
  | nil => rfl
  | cons p rest ih =>
    by_cases h : p.1 = k
    · subst h
      simp [entryGet_cons]
    · simp only [List.map_cons, entryGet_cons, if_neg h, ih]

theorem dictInsert_of_mem {d : Entry} {k : String} (h : k ∈ entryKeys d) (v : PyVal) :
    dictInsert d k v = d.map (fun p => (p.1, if p.1 = k then v else p.2)) := by
  rw [dictInsert, if_pos h]
  congr 1
  funext p
  by_cases hp : p.1 = k
  · rw [if_pos hp, if_pos hp, hp]
  · rw [if_neg hp, if_neg hp]

theorem dictInsert_of_not_mem {d : Entry} {k : String} (h : k ∉ entryKeys d) (v : PyVal) :
    dictInsert d k v = d ++ [(k, v)] := by
  rw [dictInsert, if_neg h]

theorem dictUpdate_nil (d : Entry) : dictUpdate d [] = d := rfl

theorem dictUpdate_cons (d : Entry) (q : String × PyVal) (e : Entry) :
    dictUpdate d (q :: e) = dictUpdate (dictInsert d q.1 q.2) e := rfl

/-- The workhorse: updating a dict whose key set contains all updated keys
replaces values pointwise and preserves the key sequence. -/
theorem dictUpdate_eq_map {e : Entry} (d : Entry)
    (hsub : ∀ k ∈ entryKeys e, k ∈ entryKeys d) (hnd : (entryKeys e).Nodup) :
    dictUpdate d e = d.map (fun p => (p.1, (entryGet e p.1).getD p.2)) := by
  induction e generalizing d with
  | nil =>
    rw [dictUpdate_nil]
    conv_lhs => rw [← List.map_id d]
    congr 1
  | cons q rest ih =>
    rw [dictUpdate_cons]
    have hq : q.1 ∈ entryKeys d := hsub q.1 (by rw [entryKeys_cons]; exact List.mem_cons_self _ _)
    rw [entryKeys_cons] at hnd
    have hnr : (entryKeys rest).Nodup := hnd.of_cons
    have hq1 : q.1 ∉ entryKeys rest := (List.nodup_cons.mp hnd).1
    rw [dictInsert_of_mem hq]
    have hkeys : entryKeys (d.map (fun p => (p.1, if p.1 = q.1 then q.2 else p.2)))
        = entryKeys d := entryKeys_map_val (fun k v => if k = q.1 then q.2 else v) d
    rw [ih (d.map (fun p => (p.1, if p.1 = q.1 then q.2 else p.2)))
      (fun k hk => by
        rw [hkeys]
        exact hsub k (by rw [entryKeys_cons]; exact List.mem_cons_of_mem _ hk)) hnr]
    rw [List.map_map]
    congr 1
    funext p
    by_cases hp : p.1 = q.1
    · have h1 : entryGet rest q.1 = Option.none := entryGet_eq_none hq1
      simp [Function.comp, entryGet_cons, hp, h1]
    · have hp' : ¬ q.1 = p.1 := fun hh => hp hh.symm
      simp [Function.comp, entryGet_cons, hp, hp']

theorem entryGet_isSome_of_mem {e : Entry} {k : String} (h : k ∈ entryKeys e) :
    ∃ v, entryGet e k = some v := by
  induction e with
  | nil => simp [entryKeys] at h
  | cons p rest ih =>
    by_cases hp : p.1 = k
    · exact ⟨p.2, by rw [entryGet_cons, if_pos hp]⟩
    · rw [entryKeys_cons, List.mem_cons] at h
      rcases h with h | h
    
      · exact absurd h.symm hp
      · obtain ⟨v, hv⟩ := ih h
        exact ⟨v, by rw [entryGet_cons, if_neg hp, hv]⟩

theorem entryKeys_dictUpdate {e : Entry} (d : Entry)
    (hsub : ∀ k ∈ entryKeys e, k ∈ entryKeys d) (hnd : (entryKeys e).Nodup) :
    entryKeys (dictUpdate d e) = entryKeys d := by
  rw [dictUpdate_eq_map d hsub hnd]
  exact entryKeys_map_val (fun k v => (entryGet e k).getD v) d

theorem entryGet_dictUpdate {e : Entry} (d : Entry)
    (hsub : ∀ k ∈ entryKeys e, k ∈ entryKeys d) (hnd : (entryKeys e).Nodup) (k : String) :
    entryGet (dictUpdate d e) k = (entryGet d k).map (fun v => (entryGet e k).getD v) := by
  rw [dictUpdate_eq_map d hsub hnd]
  exact entryGet_map_val (fun k0 v => (entryGet e k0).getD v) d k

theorem entryGet_dictUpdate_not_mem {e : Entry} (d : Entry)
    (hsub : ∀ k ∈ entryKeys e, k ∈ entryKeys d) (hnd : (entryKeys e).Nodup)
    {k : String} (hk : k ∉ entryKeys e) :
    entryGet (dictUpdate d e) k = entryGet d k := by
  rw [entryGet_dictUpdate d hsub hnd k, entryGet_eq_none hk]
  cases entryGet d k <;> rfl

theorem entryGet_dictUpdate_mem {e : Entry} (d : Entry)
    (hsub : ∀ k ∈ entryKeys e, k ∈ entryKeys d) (hnd : (entryKeys e).Nodup)
    {k : String} (hk : k ∈ entryKeys e) :
    entryGet (dictUpdate d e) k = entryGet e k := by
  rw [entryGet_dictUpdate d hsub hnd k]
  obtain ⟨v, hv⟩ := entryGet_isSome_of_mem (hsub k hk)
  obtain ⟨w, hw⟩ := entryGet_isSome_of_mem hk
  rw [hv, hw]
  rfl

theorem dictUpdate_of_disjoint {e : Entry} (d : Entry)
    (hdisj : ∀ k ∈ entryKeys e, k ∉ entryKeys d) (hnd : (entryKeys e).Nodup) :
    dictUpdate d e = d ++ e := by
  induction e generalizing d with
  | nil => simp [dictUpdate_nil]
  | cons q rest ih =>
    rw [entryKeys_cons] at hnd
    rw [dictUpdate_cons,
      dictInsert_of_not_mem (hdisj q.1 (by rw [entryKeys_cons]; exact List.mem_cons_self _ _))]
    rw [ih (d ++ [(q.1, q.2)])
      (fun k hk => by
        rw [entryKeys_append]
        simp only [List.mem_append, not_or]
        refine ⟨hdisj k (by rw [entryKeys_cons]; exact List.mem_cons_of_mem _ hk), ?_⟩
        simp [entryKeys]
        intro hkq
        exact absurd (hkq ▸ hk) (List.nodup_cons.mp hnd).1)
      (List.nodup_cons.mp hnd).2]
    simp

/-! ### Helper lemmas: folds -/

theorem foldl_append_eq_flatMap (f : α → List β) (l : List α) (init : List β) :
    l.foldl (fun acc x => acc ++ f x) init = init ++ l.flatMap f := by
  induction l generalizing init with
  | nil => simp
  | cons x xs ih => simp [ih, List.append_assoc]

theorem foldl_filter_ite (p : α → Prop) [DecidablePred p] (g : β → α → β)
    (l : List α) (init : β) :
    (l.filter (fun x => p x)).foldl g init
      = l.foldl (fun acc x => if p x then g acc x else acc) init := by
  induction l generalizing init with
  | nil => rfl
  | cons x xs ih =>
    by_cases h : p x
    · simp [List.filter_cons, h, ih]
    · simp [List.filter_cons, h, ih]

/-- The inner loop of `merge` appends exactly the matching other entries
(in order) and sets the flag exactly when a match exists. -/
theorem mergeRow_foldl (template se : Entry) (skey okey : String) (od : List Entry)
    (acc : List Entry) (flag : Bool) :
    od.foldl
      (fun (a : List Entry × Bool) oe =>
        if entryGet se skey = entryGet oe okey then
          (a.1 ++ [dictUpdate (dictUpdate template se) oe], true)
        else a)
      (acc, flag)
    = (acc ++ (od.filter (fun oe => entryGet se skey = entryGet oe okey)).map
        (fun oe => dictUpdate (dictUpdate template se) oe),
       flag || od.any (fun oe => entryGet se skey = entryGet oe okey)) := by
  induction od generalizing acc flag with
  | nil => simp
  | cons oe rest ih =>
    by_cases h : entryGet se skey = entryGet oe okey
    · rw [List.foldl_cons, if_pos h, ih]
      have hd : (decide (entryGet se skey = entryGet oe okey)) = true := decide_eq_true h
      simp [List.filter_cons, List.any_cons, hd, List.append_assoc]
    · rw [List.foldl_cons, if_neg h, ih]
      have hd : (decide (entryGet se skey = entryGet oe okey)) = false := decide_eq_false h
      simp [List.filter_cons, List.any_cons, hd]

theorem mergeRow_eq (template se : Entry) (od : List Entry) (skey okey : String) :
    mergeRow template se od skey okey
      = if (od.filter (fun oe => entryGet se skey = entryGet oe okey)) = [] then
          [dictUpdate template se]
        else (od.filter (fun oe => entryGet se skey = entryGet oe okey)).map
          (fun oe => dictUpdate (dictUpdate template se) oe) := by
  rw [mergeRow, mergeRow_foldl]
  by_cases h : od.any (fun oe => entryGet se skey = entryGet oe okey)
  · have hne : (od.filter (fun oe => entryGet se skey = entryGet oe okey)) ≠ [] := by
      rw [List.any_eq_true] at h
      obtain ⟨oe, hmem, hoe⟩ := h
      intro hnil
      have : oe ∈ od.filter (fun oe => entryGet se skey = entryGet oe okey) :=
        List.mem_filter.mpr ⟨hmem, hoe⟩
      rw [hnil] at this
      exact absurd this (List.not_mem_nil _)
    simp [h, hne]
  · have hnil : (od.filter (fun oe => entryGet se skey = entryGet oe okey)) = [] := by
      rw [List.filter_eq_nil_iff]
      intro oe hmem
      rw [Bool.not_eq_true, List.any_eq_false] at h
      exact h oe hmem
    simp [h, hnil]

theorem updateRow_eq (se : Entry) (od : List Entry) (skey okey : String) :
    updateRow se od skey okey
      = (od.filter (fun oe => entryGet se skey = entryGet oe okey)).foldl dictUpdate se := by
  rw [updateRow, foldl_filter_ite (fun oe => entryGet se skey = entryGet oe okey) dictUpdate od se]

/-- Updating twice with dicts over the same keys keeps only the second
update (the absorption behind last-match-wins). -/
theorem dictUpdate_absorb {m1 m2 : Entry} (se : Entry)
    (h12 : entryKeys m1 = entryKeys m2)
    (hsub : ∀ k ∈ entryKeys m2, k ∈ entryKeys se)
    (hnd : (entryKeys m2).Nodup) :
    dictUpdate (dictUpdate se m1) m2 = dictUpdate se m2 := by
  have hsub1 : ∀ k ∈ entryKeys m1, k ∈ entryKeys se := fun k hk => hsub k (h12 ▸ hk)
  have hnd1 : (entryKeys m1).Nodup := h12 ▸ hnd
  have hk1 : entryKeys (dictUpdate se m1) = entryKeys se := entryKeys_dictUpdate se hsub1 hnd1
  have hkm : entryKeys (se.map (fun p => (p.1, (entryGet m1 p.1).getD p.2))) = entryKeys se :=
    entryKeys_map_val (fun k v => (entryGet m1 k).getD v) se
  rw [dictUpdate_eq_map se hsub1 hnd1,
    dictUpdate_eq_map _ (fun k hk => by rw [hkm]; exact hsub k hk) hnd,
    dictUpdate_eq_map se hsub hnd, List.map_map]
  congr 1
  funext p
  simp only [Function.comp]
  by_cases hp : p.1 ∈ entryKeys m2
  · obtain ⟨v, hv⟩ := entryGet_isSome_of_mem hp
    rw [hv]
    rfl
  · have h2 : entryGet m2 p.1 = Option.none := entryGet_eq_none hp
    have h1 : entryGet m1 p.1 = Option.none := entryGet_eq_none (fun hk => hp (h12 ▸ hk))
    rw [h1, h2]
    rfl

/-- A fold of dict updates over entries sharing one key set equals a single
update with the last entry. -/
theorem foldl_dictUpdate_eq_last (ms : List Entry) (se : Entry) (cols : List String)
    (hms : ∀ m ∈ ms, entryKeys m = cols)
    (hsub : ∀ k ∈ cols, k ∈ entryKeys se) (hnd : cols.Nodup) :
    ms.foldl dictUpdate se
      = match ms.getLast? with
        | some m => dictUpdate se m
        | Option.none => se := by
  induction ms using List.reverseRecOn with
  | nil => rfl
  | append_singleton ms m ih =>
    rw [List.foldl_append, List.foldl_cons, List.foldl_nil,
      ih (fun x hx => hms x (List.mem_append_left _ hx)), List.getLast?_append]
    cases hlast : ms.getLast? with
    | none =>
      rfl
    | some m0 =>
      have hm0 : m0 ∈ ms := List.mem_of_getLast?_eq_some hlast
      have hm : entryKeys m = cols := hms m (List.mem_append_right _ (List.mem_singleton_self _))
      exact dictUpdate_absorb se
        ((hms m0 (List.mem_append_left _ hm0)).trans hm.symm)
        (fun k hk => hsub k (hm ▸ hk))
        (by rw [hm]; exact hnd)

/-! ### Helper lemmas: bounded ring buffer -/

theorem takeLast_of_length_le {l : List α} {n : Nat} (h : l.length ≤ n) :
    takeLast n l = l := by
  rw [takeLast, Nat.sub_eq_zero_of_le h, List.drop_zero]

theorem length_takeLast (n : Nat) (l : List α) :
    (takeLast n l).length = min n l.length := by
  rw [takeLast, List.length_drop]
  omega

theorem takeLast_drop {L : List α} {m n : Nat} (h : m + n ≤ L.length) :
    takeLast n (L.drop m) = takeLast n L := by
  rw [takeLast, takeLast, List.length_drop, List.drop_drop]
  congr 1
  omega

theorem takeLast_append_left (n : Nat) (l l' : List α) :
    takeLast n (takeLast n l ++ l') = takeLast n (l ++ l') := by
  by_cases h : l.length ≤ n
  · rw [takeLast_of_length_le h]
  · show takeLast n (l.drop (l.length - n) ++ l') = _
    rw [← List.drop_append_of_le_length (Nat.sub_le _ _)]
    exact takeLast_drop (by rw [List.length_append]; omega)

theorem finiteList_append_eq (size : Nat) (buf : List Int) (x : Int)
    (h1 : 0 < size) (h2 : buf.length ≤ size) :
    FiniteList.append ⟨size, buf⟩ x = ⟨size, takeLast size (buf ++ [x])⟩ := by
  rw [FiniteList.append]
  by_cases hb : size ≤ buf.length
  · rw [if_pos hb]
    have hlen : buf.length = size := Nat.le_antisymm h2 hb
    have : takeLast size (buf ++ [x]) = (buf ++ [x]).drop 1 := by
      rw [takeLast, List.length_append]
      congr 1
      simp [hlen]
    rw [this, List.drop_append_of_le_length (by omega)]
  · rw [if_neg hb]
    rw [takeLast_of_length_le (by rw [List.length_append]; simp; omega)]

theorem finiteList_extend_eq (xs : List Int) : ∀ (size : Nat) (buf : List Int),
    0 < size → buf.length ≤ size →
    FiniteList.extend ⟨size, buf⟩ xs = ⟨size, takeLast size (buf ++ xs)⟩ := by
  induction xs with
  | nil =>
    intro size buf h1 h2
    rw [FiniteList.extend, List.foldl_nil, List.append_nil, takeLast_of_length_le h2]
  | cons x xs ih =>
    intro size buf h1 h2
    have hstep : FiniteList.extend ⟨size, buf⟩ (x :: xs)
        = FiniteList.extend (FiniteList.append ⟨size, buf⟩ x) xs := rfl
    rw [hstep, finiteList_append_eq size buf x h1 h2,
      ih size (takeLast size (buf ++ [x])) h1 (by rw [length_takeLast]; omega),
      takeLast_append_left, List.append_assoc, List.singleton_append]

theorem ringScenario_eq :
    ringScenario = ⟨1000, ((List.range 1005).map Int.ofNat).drop 5⟩ := by
  rw [ringScenario,
    finiteList_extend_eq ((List.range 1005).map Int.ofNat) 1000 []
      (by norm_num) (by norm_num),
    List.nil_append, takeLast, List.length_map, List.length_range]

theorem ringScenario_avg :
    ringScenario.get_average 20
      = some (pyRoundDiv ((((List.range 1005).map Int.ofNat).drop 985).sum) 20) := by
  rw [ringScenario_eq, FiniteList.get_average]
  have hlen : (((List.range 1005).map Int.ofNat).drop 5).length = 1000 := by
    rw [List.length_drop, List.length_map, List.length_range]
  simp only [if_neg (by norm_num : ¬ ((20 : Nat) = 0))]
  rw [if_pos (by rw [hlen]; norm_num)]
  have hsub : takeLast 20 (((List.range 1005).map Int.ofNat).drop 5)
      = ((List.range 1005).map Int.ofNat).drop 985 := by
    rw [takeLast, hlen, List.drop_drop]
  rw [hsub]
  have hlen2 : (((List.range 1005).map Int.ofNat).drop 985).length = 20 := by
    rw [List.length_drop, List.length_map, List.length_range]
  rw [hlen2]

theorem ringScenario_sum :
    (((List.range 1005).map Int.ofNat).drop 985).sum = (19890 : Int) := by decide

theorem get_average_none_of_large_window (fl : FiniteList) (req : Nat)
    (h : 2 * fl.data.length < req) :
    fl.get_average req = Option.none := by
  rw [FiniteList.get_average]
  have hreq : ¬ (req = 0) := by omega
  have hcond : ¬ (req / 2 < fl.data.length) := by omega
  simp only [if_neg hreq, if_neg hcond]

/-! ### Helper lemmas: unroll error propagation -/

theorem entryLens_eq_nil {e : Entry} (h : ∀ p ∈ e, p.2.isList = false) :
    entryLens e = [] := by
  rw [entryLens, List.filterMap_eq_nil_iff]
  intro p hp
  have := h p hp
  cases hv : p.2 with
  | prim q => rfl
  | list l => rw [hv] at this; cases this

theorem except_bind_error {ε α β : Type} (e : ε) (g : α → Except ε β) :
    ((Except.error e : Except ε α) >>= g) = Except.error e := rfl

theorem except_bind_ok {ε α β : Type} (a : α) (g : α → Except ε β) :
    ((Except.ok a : Except ε α) >>= g) = g a := rfl

theorem unrollEntry_isError_of_no_list {e : Entry} (h : ∀ p ∈ e, p.2.isList = false) :
    exceptIsError (unrollEntry e) = true := by
  rw [unrollEntry]
  simp only [entryLens_eq_nil h]
  rfl

theorem mapM_except_isError {ε α β : Type} {f : α → Except ε β} {l : List α} {x : α}
    (hx : x ∈ l) (hfx : exceptIsError (f x) = true) :
    exceptIsError (l.mapM f) = true := by
  induction l with
  | nil => cases hx
  | cons y ys ih =>
    rw [List.mapM_cons]
    cases hy : f y with
    | error e => rw [except_bind_error]; rfl
    | ok b =>
      rcases List.mem_cons.mp hx with rfl | hx'
      · rw [hy] at hfx
        cases hfx
      · rw [except_bind_ok]
        have hys := ih hx'
        cases hmr : ys.mapM f with
        | error e => rw [except_bind_error]; rfl
        | ok rs => rw [hmr] at hys; cases hys

/-! ### Claim theorems -/

/-- C8 counterexample: in the specification scenario (1005 pushes of
0..1004 into a capacity-1000 buffer), the moving average over window 20 is
994, while the exact mean of the last 20 pushed values is 19890 / 20 =
994.5 — the code returns the rounded mean, not the mean. -/
theorem claim_C8_counterexample :
    ringScenario.get_average 20 = some 994
    ∧ (((List.range 1005).map Int.ofNat).drop 985).sum = (19890 : Int)
    ∧ ((994 : Rat) ≠ (19890 : Rat) / 20) := by
  refine ⟨?_, ringScenario_sum, by norm_num⟩
  rw [ringScenario_avg, ringScenario_sum]
  decide

/-- C8 (amended): appending to a full buffer evicts the oldest element, so
after any sequence of pushes the buffer holds exactly the trailing
`capacity` pushed values and its length never exceeds the capacity; in the
1005-push scenario the buffer is exactly the last 1000 pushed values and
the moving average over window 20 is the Python-`round`ed (half-to-even)
mean of the last 20 pushed values; a window larger than twice the current
number of elements yields `None`. -/
theorem claim_C8_ring_buffer (size : Nat) (buf xs : List Int) (fl : FiniteList) (req : Nat)
    (h1 : 0 < size) (h2 : buf.length ≤ size) (h3 : 2 * fl.data.length < req) :
    (FiniteList.extend ⟨size, buf⟩ xs).data = takeLast size (buf ++ xs)
    ∧ (FiniteList.extend ⟨size, buf⟩ xs).data.length ≤ size
    ∧ ringScenario.data = ((List.range 1005).map Int.ofNat).drop 5
    ∧ ringScenario.get_average 20
        = some (pyRoundDiv ((((List.range 1005).map Int.ofNat).drop 985).sum) 20)
    ∧ fl.get_average req = Option.none := by
  refine ⟨?_, ?_, ?_, ringScenario_avg, get_average_none_of_large_window fl req h3⟩
  · rw [finiteList_extend_eq xs size buf h1 h2]
  · rw [finiteList_extend_eq xs size buf h1 h2]
    rw [length_takeLast]
    omega
  · rw [ringScenario_eq]

/-- Witness for C8 at concrete inputs: capacity 3, pushes 1..4, and a
window request of 5 against a 2-element buffer. -/
theorem claim_C8_witness :
    (FiniteList.extend ⟨3, []⟩ [1, 2, 3, 4]).data = takeLast 3 ([] ++ [1, 2, 3, 4])
    ∧ (FiniteList.mk 5 [1, 2]).get_average 5 = Option.none :=
  ⟨(claim_C8_ring_buffer 3 [] [1, 2, 3, 4] ⟨5, [1, 2]⟩ 5 (by decide) (by decide) (by decide)).1,
   (claim_C8_ring_buffer 3 [] [1, 2, 3, 4] ⟨5, [1, 2]⟩ 5 (by decide) (by decide)
     (by decide)).2.2.2.2⟩

/-- C9 counterexample: two requests whose sets of active formatter columns
differ (column A active vs column B active) both reuse the same cached
result, because the fingerprint only compares the number of included
columns. -/
theorem claim_C9_counterexample :
    activeResources [(FColumn.res "A", true)] ≠ activeResources [(FColumn.res "B", true)]
    ∧ get_view_uses_cache (some ⟨0, 0, ⟨"nbstat", 1, true, 0⟩⟩) 0 "nbstat"
        [(FColumn.res "A", true)] 0 true 2 = true
    ∧ get_view_uses_cache (some ⟨0, 0, ⟨"nbstat", 1, true, 0⟩⟩) 0 "nbstat"
        [(FColumn.res "B", true)] 0 true 2 = true := by
  refine ⟨by decide, ?_, ?_⟩ <;>
    · rw [get_view_uses_cache, cache_available]
      rw [if_neg (by norm_num)]
      rfl

/-- C9 (amended): for a cache-enabled request, the cached table is reused
if and only if a cached table exists, its age is within the shrunk
freshness window `interval * 0.8`, and the request's view name, verbosity
and NUMBER of active formatter columns match the recorded parameters (the
fingerprint compares only the count of active columns, not which columns
are active). -/
theorem claim_C9_cache (cache : Option CacheState) (now : Rat) (name : String)
    (f : List FItem) (verbose : Int) (use_cache : Bool) (interval : Rat) :
    get_view_uses_cache cache now name f verbose use_cache interval = true
    ↔ (use_cache = true ∧ ∃ c, cache = some c
        ∧ now - c.time ≤ interval * (4 / 5)
        ∧ name = c.parameters.name
        ∧ verbose = c.parameters.verbose
        ∧ n_formatter_of f = c.parameters.n_formatter) := by
  rw [get_view_uses_cache, Bool.and_eq_true]
  cases cache with
  | none =>
    constructor
    · rintro ⟨-, h⟩
      cases h
    · rintro ⟨-, c, hc, -⟩
      cases hc
  | some c =>
    constructor
    · rintro ⟨hu, hav⟩
      refine ⟨hu, c, rfl, ?_⟩
      rw [cache_available] at hav
      split_ifs at hav with hif1 hif2 hif3 hif4
      exact ⟨not_lt.mp hif1, not_ne_iff.mp hif2, not_ne_iff.mp hif3, not_ne_iff.mp hif4⟩
    · rintro ⟨hu, c', hc', hage, hname, hverb, hnf⟩
      obtain rfl : c' = c := (Option.some.inj hc').symm
      refine ⟨hu, ?_⟩
      rw [cache_available, if_neg (not_lt.mpr hage), if_neg (not_ne_iff.mpr hname),
        if_neg (not_ne_iff.mpr hverb), if_neg (not_ne_iff.mpr hnf)]

/-- C10: a table containing an entry with no list-valued column at all
makes `unroll` raise the unequal-lengths structural error (the set of list
lengths is empty, so its cardinality is 0, not 1); in particular a table
of purely scalar rows can never be unrolled. -/
theorem claim_C10_unroll_no_list (t : ResourceTable) (e : Entry)
    (he : e ∈ t.data) (hnl : ∀ p ∈ e, p.2.isList = false) :
    exceptIsError (ResourceTable.unroll t) = true := by
  rw [ResourceTable.unroll]
  have herr := mapM_except_isError he (unrollEntry_isError_of_no_list hnl)
  cases hmr : t.data.mapM unrollEntry with
  | error err => rw [except_bind_error]; rfl
  | ok rs => rw [hmr] at herr; cases herr

/-- Witness for C10: the one-row scalar table `[ {a: 7} ]` cannot be
unrolled. -/
theorem claim_C10_witness :
    ([("a", PyVal.prim (Prim.int 7))] ∈
      (ResourceTable.mk [[("a", PyVal.prim (Prim.int 7))]]).data)
    ∧ exceptIsError (ResourceTable.unroll ⟨[[("a", PyVal.prim (Prim.int 7))]]⟩) = true :=
  ⟨by decide,
   claim_C10_unroll_no_list ⟨[[("a", PyVal.prim (Prim.int 7))]]⟩
     [("a", PyVal.prim (Prim.int 7))] (by decide) (by decide)⟩

/-! ### Helper lemmas: update -/

theorem columns_eq_some {t : ResourceTable} {cols : List String}
    (h : t.columns = some cols) :
    ∃ e0 rest, t.data = e0 :: rest ∧ entryKeys e0 = cols := by
  rw [ResourceTable.columns] at h
  cases hd : t.data with
  | nil => rw [hd] at h; cases h
  | cons e0 rest =>
    rw [hd] at h
    simp only [List.head?, Option.map_some'] at h
    exact ⟨e0, rest, rfl, Option.some.inj h⟩

/-- `update` with both key columns present and subset columns succeeds and
maps `updateRow` over the data. -/
theorem update_ok (t o : ResourceTable) (skey okey : String) (scols ocols : List String)
    (hsc : t.columns = some scols) (hoc : o.columns = some ocols)
    (hsk : skey ∈ scols) (hok : okey ∈ ocols)
    (hsub : ∀ c ∈ ocols, c ∈ scols) :
    t.update o skey okey = .ok ⟨t.data.map (fun se => updateRow se o.data skey okey)⟩ := by
  have hall : (ocols.all (fun c => c ∈ scols)) = true := by
    rw [List.all_eq_true]
    intro c hc
    exact decide_eq_true (hsub c hc)
  rw [ResourceTable.update, hsc, hoc]
  simp only [if_neg (not_not_intro hsk), if_neg (not_not_intro hok)]
  rw [if_neg (by rw [hall]; exact not_not_intro rfl)]

/-- Last-match-wins: one loop iteration of `update` on a self entry equals
a single dict update with the last matching other entry. -/
theorem updateRow_eq_last (se : Entry) (od : List Entry) (skey okey : String)
    (ocols : List String)
    (hms : ∀ oe ∈ od, entryKeys oe = ocols)
    (hsub : ∀ k ∈ ocols, k ∈ entryKeys se) (hnd : ocols.Nodup) :
    updateRow se od skey okey
      = match (od.filter (fun oe => entryGet se skey = entryGet oe okey)).getLast? with
        | some m => dictUpdate se m
        | Option.none => se := by
  rw [updateRow_eq]
  exact foldl_dictUpdate_eq_last _ se ocols
    (fun m hm => hms m (List.mem_of_mem_filter hm)) hsub hnd

theorem updateRow_keys (se : Entry) (od : List Entry) (skey okey : String)
    (ocols : List String)
    (hms : ∀ oe ∈ od, entryKeys oe = ocols)
    (hsub : ∀ k ∈ ocols, k ∈ entryKeys se) (hnd : ocols.Nodup) :
    entryKeys (updateRow se od skey okey) = entryKeys se := by
  rw [updateRow_eq_last se od skey okey ocols hms hsub hnd]
  cases hl : (od.filter (fun oe => entryGet se skey = entryGet oe okey)).getLast? with
  | none => rfl
  | some m =>
    have hm : entryKeys m = ocols :=
      hms m (List.mem_of_mem_filter (List.mem_of_getLast?_eq_some hl))
    exact entryKeys_dictUpdate se (fun k hk => hsub k (hm ▸ hk)) (by rw [hm]; exact hnd)

theorem updateRow_get (se : Entry) (od : List Entry) (skey okey : String)
    (ocols : List String)
    (hms : ∀ oe ∈ od, entryKeys oe = ocols)
    (hsub : ∀ k ∈ ocols, k ∈ entryKeys se) (hnd : ocols.Nodup)
    {k : String} (hk : k ∉ ocols) :
    entryGet (updateRow se od skey okey) k = entryGet se k := by
  rw [updateRow_eq_last se od skey okey ocols hms hsub hnd]
  cases hl : (od.filter (fun oe => entryGet se skey = entryGet oe okey)).getLast? with
  | none => rfl
  | some m =>
    have hm : entryKeys m = ocols :=
      hms m (List.mem_of_mem_filter (List.mem_of_getLast?_eq_some hl))
    exact entryGet_dictUpdate_not_mem se (fun x hx => hsub x (hm ▸ hx))
      (by rw [hm]; exact hnd) (by rw [hm]; exact hk)

/-- C2 counterexample: self `{k:0, v:None}` updated from other rows
`{k:0, v:1}, {k:0, v:2}` (both matching) ends with `v = 2`: the LAST
matching row wins, not the first as the specification states. -/
theorem claim_C2_counterexample :
    ResourceTable.update ⟨[[("k", PyVal.prim (Prim.int 0)), ("v", PyVal.prim Prim.none)]]⟩
        ⟨[[("k", PyVal.prim (Prim.int 0)), ("v", PyVal.prim (Prim.int 1))],
          [("k", PyVal.prim (Prim.int 0)), ("v", PyVal.prim (Prim.int 2))]]⟩ "k" "k"
      ≠ .ok (updateSpecFirst
        ⟨[[("k", PyVal.prim (Prim.int 0)), ("v", PyVal.prim Prim.none)]]⟩
        ⟨[[("k", PyVal.prim (Prim.int 0)), ("v", PyVal.prim (Prim.int 1))],
          [("k", PyVal.prim (Prim.int 0)), ("v", PyVal.prim (Prim.int 2))]]⟩ "k" "k")
    ∧ updateSpecFirst
        ⟨[[("k", PyVal.prim (Prim.int 0)), ("v", PyVal.prim Prim.none)]]⟩
        ⟨[[("k", PyVal.prim (Prim.int 0)), ("v", PyVal.prim (Prim.int 1))],
          [("k", PyVal.prim (Prim.int 0)), ("v", PyVal.prim (Prim.int 2))]]⟩ "k" "k"
      = ⟨[[("k", PyVal.prim (Prim.int 0)), ("v", PyVal.prim (Prim.int 1))]]⟩
    ∧ ResourceTable.update ⟨[[("k", PyVal.prim (Prim.int 0)), ("v", PyVal.prim Prim.none)]]⟩
        ⟨[[("k", PyVal.prim (Prim.int 0)), ("v", PyVal.prim (Prim.int 1))],
          [("k", PyVal.prim (Prim.int 0)), ("v", PyVal.prim (Prim.int 2))]]⟩ "k" "k"
      = .ok ⟨[[("k", PyVal.prim (Prim.int 0)), ("v", PyVal.prim (Prim.int 2))]]⟩ := by
  refine ⟨by decide, by decide, by decide⟩

/-- C2 (amended): for homogeneous tables with `other`'s columns a subset of
`self`'s and both key columns present, `update` overwrites, for each
self-row, the columns present in `other` with the values of the LAST
other-row whose `other_key` value equals that row's `self_key` value (rows
with no match are unchanged), and every row of self remains. -/
theorem claim_C2_update_last_match (t o : ResourceTable) (skey okey : String)
    (scols ocols : List String)
    (hsc : t.columns = some scols) (hoc : o.columns = some ocols)
    (hsk : skey ∈ scols) (hok : okey ∈ ocols)
    (hsub : ∀ c ∈ ocols, c ∈ scols)
    (hho : ∀ e ∈ o.data, entryKeys e = ocols)
    (hhs : ∀ e ∈ t.data, ∀ k ∈ ocols, k ∈ entryKeys e)
    (hnd : ocols.Nodup) :
    t.update o skey okey = .ok (updateSpecLast t o skey okey)
    ∧ (updateSpecLast t o skey okey).data.length = t.data.length := by
  constructor
  · rw [update_ok t o skey okey scols ocols hsc hoc hsk hok hsub, updateSpecLast]
    have : ∀ se ∈ t.data, updateRow se o.data skey okey
        = match (o.data.filter (fun oe => entryGet se skey = entryGet oe okey)).getLast? with
          | some m => dictUpdate se m
          | Option.none => se := fun se hse =>
      updateRow_eq_last se o.data skey okey ocols hho (hhs se hse) hnd
    congr 1
    exact congrArg ResourceTable.mk (List.map_congr_left this)
  · rw [updateSpecLast, List.length_map]

/-- Witness for C2 at the tables of the counterexample. -/
theorem claim_C2_witness :
    ResourceTable.update ⟨[[("k", PyVal.prim (Prim.int 0)), ("v", PyVal.prim Prim.none)]]⟩
        ⟨[[("k", PyVal.prim (Prim.int 0)), ("v", PyVal.prim (Prim.int 1))],
          [("k", PyVal.prim (Prim.int 0)), ("v", PyVal.prim (Prim.int 2))]]⟩ "k" "k"
      = .ok (updateSpecLast
        ⟨[[("k", PyVal.prim (Prim.int 0)), ("v", PyVal.prim Prim.none)]]⟩
        ⟨[[("k", PyVal.prim (Prim.int 0)), ("v", PyVal.prim (Prim.int 1))],
          [("k", PyVal.prim (Prim.int 0)), ("v", PyVal.prim (Prim.int 2))]]⟩ "k" "k") :=
  (claim_C2_update_last_match
    ⟨[[("k", PyVal.prim (Prim.int 0)), ("v", PyVal.prim Prim.none)]]⟩
    ⟨[[("k", PyVal.prim (Prim.int 0)), ("v", PyVal.prim (Prim.int 1))],
      [("k", PyVal.prim (Prim.int 0)), ("v", PyVal.prim (Prim.int 2))]]⟩ "k" "k"
    ["k", "v"] ["k", "v"] (by decide) (by decide) (by decide) (by decide)
    (by decide) (by decide) (by decide) (by decide)).1

/-- C3 counterexample: with self `{k:1, v:9}` and other rows
`{v:1, k:2}, {v:2, k:3}` (keys `self_key = k`, `other_key = v`), the first
`update` overwrites `k` itself, so a second `update` matches a different
other-row and changes the table again: `update` is not idempotent. -/
theorem claim_C3_counterexample :
    (ResourceTable.update ⟨[[("k", PyVal.prim (Prim.int 1)), ("v", PyVal.prim (Prim.int 9))]]⟩
        ⟨[[("v", PyVal.prim (Prim.int 1)), ("k", PyVal.prim (Prim.int 2))],
          [("v", PyVal.prim (Prim.int 2)), ("k", PyVal.prim (Prim.int 3))]]⟩ "k" "v"
      >>= fun r => r.update
        ⟨[[("v", PyVal.prim (Prim.int 1)), ("k", PyVal.prim (Prim.int 2))],
          [("v", PyVal.prim (Prim.int 2)), ("k", PyVal.prim (Prim.int 3))]]⟩ "k" "v")
    ≠ ResourceTable.update ⟨[[("k", PyVal.prim (Prim.int 1)), ("v", PyVal.prim (Prim.int 9))]]⟩
        ⟨[[("v", PyVal.prim (Prim.int 1)), ("k", PyVal.prim (Prim.int 2))],
          [("v", PyVal.prim (Prim.int 2)), ("k", PyVal.prim (Prim.int 3))]]⟩ "k" "v" := by
  decide

/-- C3 (amended): `update` is idempotent provided `self_key` is not among
`other`'s columns (so that updating cannot rewrite the join key): applying
it twice produces the same table as applying it once. -/
theorem claim_C3_update_idempotent (t o : ResourceTable) (skey okey : String)
    (scols ocols : List String)
    (hsc : t.columns = some scols) (hoc : o.columns = some ocols)
    (hsk : skey ∈ scols) (hok : okey ∈ ocols)
    (hsub : ∀ c ∈ ocols, c ∈ scols)
    (hho : ∀ e ∈ o.data, entryKeys e = ocols)
    (hhs : ∀ e ∈ t.data, ∀ k ∈ ocols, k ∈ entryKeys e)
    (hnd : ocols.Nodup)
    (hskn : skey ∉ ocols) :
    ∃ r : ResourceTable, t.update o skey okey = .ok r ∧ r.update o skey okey = .ok r := by
  refine ⟨⟨t.data.map (fun se => updateRow se o.data skey okey)⟩,
    update_ok t o skey okey scols ocols hsc hoc hsk hok hsub, ?_⟩
  have hrcols : (ResourceTable.mk (t.data.map (fun se => updateRow se o.data skey okey))).columns
      = some scols := by
    obtain ⟨e0, rest, hd, hk0⟩ := columns_eq_some hsc
    rw [ResourceTable.columns, hd, List.map_cons, List.head?_cons, Option.map_some']
    rw [updateRow_keys e0 o.data skey okey ocols hho
      (fun k hk => hk0 ▸ hsub k hk) hnd, hk0]
  have hhs' : ∀ e ∈ (t.data.map (fun se => updateRow se o.data skey okey)),
      ∀ k ∈ ocols, k ∈ entryKeys e := by
    intro e he k hk
    obtain ⟨se, hse, rfl⟩ := List.mem_map.mp he
    rw [updateRow_keys se o.data skey okey ocols hho (hhs se hse) hnd]
    exact hhs se hse k hk
  rw [update_ok _ o skey okey scols ocols hrcols hoc hsk hok hsub]
  congr 1
  apply congrArg ResourceTable.mk
  rw [List.map_map]
  apply List.map_congr_left
  intro se hse
  simp only [Function.comp]
  have hget : entryGet (updateRow se o.data skey okey) skey = entryGet se skey :=
    updateRow_get se o.data skey okey ocols hho (hhs se hse) hnd hskn
  have hkeys : entryKeys (updateRow se o.data skey okey) = entryKeys se :=
    updateRow_keys se o.data skey okey ocols hho (hhs se hse) hnd
  have h2 : updateRow (updateRow se o.data skey okey) o.data skey okey
      = match (o.data.filter (fun oe =>
          entryGet (updateRow se o.data skey okey) skey = entryGet oe okey)).getLast? with
        | some m => dictUpdate (updateRow se o.data skey okey) m
        | Option.none => updateRow se o.data skey okey :=
    updateRow_eq_last _ o.data skey okey ocols hho
      (fun k hk => hkeys ▸ hhs se hse k hk) hnd
  rw [h2, hget]
  cases hl : (o.data.filter (fun oe => entryGet se skey = entryGet oe okey)).getLast? with
  | none => rfl
  | some m =>
    have hm : entryKeys m = ocols :=
      hho m (List.mem_of_mem_filter (List.mem_of_getLast?_eq_some hl))
    have h1 : updateRow se o.data skey okey = dictUpdate se m := by
      rw [updateRow_eq_last se o.data skey okey ocols hho (hhs se hse) hnd, hl]
    rw [h1]
    exact dictUpdate_absorb se rfl (fun k hk => hhs se hse k (hm ▸ hk)) (hm ▸ hnd)

/-- Witness for C3: a one-row table updated from a one-row other table on
key columns `k`/`k` where the other table carries only column `v`. -/
theorem claim_C3_witness :
    ∃ r : ResourceTable,
      ResourceTable.update ⟨[[("k", PyVal.prim (Prim.int 1)), ("v", PyVal.prim (Prim.int 9))]]⟩
        ⟨[[("v", PyVal.prim (Prim.int 7))]]⟩ "k" "v" = .ok r
      ∧ r.update ⟨[[("v", PyVal.prim (Prim.int 7))]]⟩ "k" "v" = .ok r :=
  claim_C3_update_idempotent
    ⟨[[("k", PyVal.prim (Prim.int 1)), ("v", PyVal.prim (Prim.int 9))]]⟩
    ⟨[[("v", PyVal.prim (Prim.int 7))]]⟩ "k" "v" ["k", "v"] ["v"]
    (by decide) (by decide) (by decide) (by decide) (by decide) (by decide)
    (by decide) (by decide) (by decide)

/-! ### Helper lemmas: merge -/

theorem entryKeys_map_key (cols : List String) (v : PyVal) :
    entryKeys (cols.map (fun k => (k, v))) = cols := by
  induction cols with
  | nil => rfl
  | cons c rest ih => simp only [List.map_cons, entryKeys_cons, ih]

theorem entryGet_map_key (cols : List String) (v : PyVal) (k : String) :
    entryGet (cols.map (fun c => (c, v))) k = if k ∈ cols then some v else Option.none := by
  induction cols with
  | nil => rfl
  | cons c rest ih =>
    rw [List.map_cons, entryGet_cons]
    by_cases hc : c = k
    · subst hc
      simp
    · rw [if_neg hc, ih]
      by_cases hm : k ∈ rest
      · rw [if_pos hm, if_pos (List.mem_cons_of_mem _ hm)]
      · rw [if_neg hm, if_neg (by rw [List.mem_cons, not_or]; exact ⟨fun h => hc h.symm, hm⟩)]

/-- With disjoint column lists, the all-`None` template of `merge` is the
concatenation of the per-table templates. -/
theorem merge_template_eq {scols ocols : List String}
    (hdisj : ∀ c ∈ scols, c ∉ ocols) (hndo : ocols.Nodup) :
    dictUpdate (scols.map (fun k => (k, PyVal.prim Prim.none)))
        (ocols.map (fun k => (k, PyVal.prim Prim.none)))
      = (scols.map (fun k => (k, PyVal.prim Prim.none)))
        ++ (ocols.map (fun k => (k, PyVal.prim Prim.none))) :=
  dictUpdate_of_disjoint _
    (fun k hk => by
      rw [entryKeys_map_key] at hk ⊢
      intro hks
      exact hdisj k hks hk)
    (by rw [entryKeys_map_key]; exact hndo)

/-- `merge` with valid keys and disjoint columns succeeds, producing for
each self entry either the matching joined entries or a single
null-padded entry. -/
theorem merge_ok (t o : ResourceTable) (skey okey : String) (scols ocols : List String)
    (hsc : t.columns = some scols) (hoc : o.columns = some ocols)
    (hsk : skey ∈ scols) (hok : okey ∈ ocols)
    (hdisj : ∀ c ∈ scols, c ∉ ocols) (hndo : ocols.Nodup) :
    t.merge o skey okey = .ok ⟨t.data.flatMap (fun se =>
      if (o.data.filter (fun oe => entryGet se skey = entryGet oe okey)) = [] then
        [dictUpdate ((scols.map (fun k => (k, PyVal.prim Prim.none)))
          ++ (ocols.map (fun k => (k, PyVal.prim Prim.none)))) se]
      else (o.data.filter (fun oe => entryGet se skey = entryGet oe okey)).map
        (fun oe => dictUpdate (dictUpdate
          ((scols.map (fun k => (k, PyVal.prim Prim.none)))
            ++ (ocols.map (fun k => (k, PyVal.prim Prim.none)))) se) oe))⟩ := by
  have hany : (scols.any (fun c => c ∈ ocols)) = false := by
    rw [List.any_eq_false]
    intro c hc
    simp only [decide_eq_true_eq]
    exact hdisj c hc
  rw [ResourceTable.merge, hsc, hoc]
  simp only [if_neg (not_not_intro hsk), if_neg (not_not_intro hok)]
  rw [if_neg (by rw [hany]; exact fun h => absurd h (by decide))]
  rw [merge_template_eq hdisj hndo]
  rw [foldl_append_eq_flatMap, List.nil_append]
  congr 1
  apply congrArg ResourceTable.mk
  rw [List.flatMap_def, List.flatMap_def]
  apply congrArg List.flatten
  apply List.map_congr_left
  intro se hse
  exact mergeRow_eq _ se o.data skey okey

theorem template_get_self {scols ocols : List String} {k : String} (hk : k ∈ scols) :
    entryGet ((scols.map (fun c => (c, PyVal.prim Prim.none)))
        ++ (ocols.map (fun c => (c, PyVal.prim Prim.none)))) k
      = some (PyVal.prim Prim.none) := by
  rw [entryGet_append, entryKeys_map_key, if_pos hk, entryGet_map_key, if_pos hk]

theorem template_get_other {scols ocols : List String} {k : String}
    (hk : k ∈ ocols) (hks : k ∉ scols) :
    entryGet ((scols.map (fun c => (c, PyVal.prim Prim.none)))
        ++ (ocols.map (fun c => (c, PyVal.prim Prim.none)))) k
      = some (PyVal.prim Prim.none) := by
  rw [entryGet_append, entryKeys_map_key, if_neg hks, entryGet_map_key, if_pos hk]

theorem template_keys (scols ocols : List String) :
    entryKeys ((scols.map (fun c => (c, PyVal.prim Prim.none)))
        ++ (ocols.map (fun c => (c, PyVal.prim Prim.none)))) = scols ++ ocols := by
  rw [entryKeys_append, entryKeys_map_key, entryKeys_map_key]

theorem nullRow_get_self {se : Entry} {scols ocols : List String}
    (hkeys : entryKeys se = scols) (hnds : scols.Nodup) {k : String} (hk : k ∈ scols) :
    entryGet (dictUpdate ((scols.map (fun c => (c, PyVal.prim Prim.none)))
        ++ (ocols.map (fun c => (c, PyVal.prim Prim.none)))) se) k = entryGet se k :=
  entryGet_dictUpdate_mem _
    (fun x hx => by rw [template_keys]; exact List.mem_append_left _ (hkeys ▸ hx))
    (by rw [hkeys]; exact hnds) (by rw [hkeys]; exact hk)

theorem nullRow_get_other {se : Entry} {scols ocols : List String}
    (hkeys : entryKeys se = scols) (hnds : scols.Nodup)
    (hdisj : ∀ c ∈ scols, c ∉ ocols) {k : String} (hk : k ∈ ocols) :
    entryGet (dictUpdate ((scols.map (fun c => (c, PyVal.prim Prim.none)))
        ++ (ocols.map (fun c => (c, PyVal.prim Prim.none)))) se) k
      = some (PyVal.prim Prim.none) := by
  have hks : k ∉ scols := fun hkk => hdisj k hkk hk
  rw [entryGet_dictUpdate_not_mem _
    (fun x hx => by rw [template_keys]; exact List.mem_append_left _ (hkeys ▸ hx))
    (by rw [hkeys]; exact hnds) (by rw [hkeys]; exact hks)]
  exact template_get_other hk hks

theorem nullRow_keys {se : Entry} {scols ocols : List String}
    (hkeys : entryKeys se = scols) (hnds : scols.Nodup) :
    entryKeys (dictUpdate ((scols.map (fun c => (c, PyVal.prim Prim.none)))
        ++ (ocols.map (fun c => (c, PyVal.prim Prim.none)))) se) = scols ++ ocols := by
  rw [entryKeys_dictUpdate _
    (fun x hx => by rw [template_keys]; exact List.mem_append_left _ (hkeys ▸ hx))
    (by rw [hkeys]; exact hnds), template_keys]

theorem mergedRow_get_self {se oe : Entry} {scols ocols : List String}
    (hkeys : entryKeys se = scols) (hko : entryKeys oe = ocols)
    (hnds : scols.Nodup) (hndo : ocols.Nodup)
    (hdisj : ∀ c ∈ scols, c ∉ ocols) {k : String} (hk : k ∈ scols) :
    entryGet (dictUpdate (dictUpdate ((scols.map (fun c => (c, PyVal.prim Prim.none)))
        ++ (ocols.map (fun c => (c, PyVal.prim Prim.none)))) se) oe) k
      = entryGet se k := by
  rw [entryGet_dictUpdate_not_mem _
    (fun x hx => by
      rw [nullRow_keys hkeys hnds]
      exact List.mem_append_right _ (hko ▸ hx))
    (by rw [hko]; exact hndo)
    (by rw [hko]; exact fun hkk => hdisj k hk hkk)]
  exact nullRow_get_self hkeys hnds hk

theorem mergedRow_get_other {se oe : Entry} {scols ocols : List String}
    (hkeys : entryKeys se = scols) (hko : entryKeys oe = ocols)
    (hnds : scols.Nodup) (hndo : ocols.Nodup) {k : String} (hk : k ∈ ocols) :
    entryGet (dictUpdate (dictUpdate ((scols.map (fun c => (c, PyVal.prim Prim.none)))
        ++ (ocols.map (fun c => (c, PyVal.prim Prim.none)))) se) oe) k
      = entryGet oe k :=
  entryGet_dictUpdate_mem _
    (fun x hx => by
      rw [nullRow_keys hkeys hnds]
      exact List.mem_append_right _ (hko ▸ hx))
    (by rw [hko]; exact hndo) (by rw [hko]; exact hk)

/-- C1: for homogeneous tables with disjoint column sets and both key
columns present, `merge` succeeds; the output length is the sum over
self-rows of `max(1, match count)`; every self-row appears at least once;
every (self-row, matching other-row) pair produces an output row carrying
both rows' values (cross-product); a self-row without matches appears with
every `other` column null; and `merge` errors whenever a key column is
absent or a column is shared. -/
theorem claim_C1_merge (t o : ResourceTable) (skey okey : String)
    (scols ocols : List String)
    (hsc : t.columns = some scols) (hoc : o.columns = some ocols)
    (hsk : skey ∈ scols) (hok : okey ∈ ocols)
    (hdisj : ∀ c ∈ scols, c ∉ ocols)
    (hhs : ∀ e ∈ t.data, entryKeys e = scols)
    (hho : ∀ e ∈ o.data, entryKeys e = ocols)
    (hnds : scols.Nodup) (hndo : ocols.Nodup) :
    ∃ r : ResourceTable,
      t.merge o skey okey = .ok r
      ∧ r.data.length = (t.data.map (fun se =>
          max 1 (o.data.filter (fun oe => entryGet se skey = entryGet oe okey)).length)).sum
      ∧ (∀ se ∈ t.data, ∃ row ∈ r.data, ∀ k ∈ scols, entryGet row k = entryGet se k)
      ∧ (∀ se ∈ t.data, ∀ oe ∈ o.data, entryGet se skey = entryGet oe okey →
          ∃ row ∈ r.data, (∀ k ∈ scols, entryGet row k = entryGet se k)
            ∧ (∀ k ∈ ocols, entryGet row k = entryGet oe k))
      ∧ (∀ se ∈ t.data,
          (o.data.filter (fun oe => entryGet se skey = entryGet oe okey)) = [] →
          ∃ row ∈ r.data, (∀ k ∈ scols, entryGet row k = entryGet se k)
            ∧ (∀ k ∈ ocols, entryGet row k = some (PyVal.prim Prim.none)))
      ∧ (∀ (t2 o2 : ResourceTable) (k1 k2 : String) (cs co : List String),
          t2.columns = some cs → o2.columns = some co →
          (k1 ∉ cs ∨ k2 ∉ co ∨ ∃ c, c ∈ cs ∧ c ∈ co) →
          exceptIsError (t2.merge o2 k1 k2) = true) := by
  refine ⟨_, merge_ok t o skey okey scols ocols hsc hoc hsk hok hdisj hndo, ?_, ?_, ?_, ?_, ?_⟩
  · rw [List.flatMap_def, List.length_flatten, List.map_map]
    apply congrArg List.sum
    apply List.map_congr_left
    intro se hse
    simp only [Function.comp]
    by_cases h : (o.data.filter (fun oe => entryGet se skey = entryGet oe okey)) = []
    · rw [if_pos h, h]
      rfl
    · rw [if_neg h, List.length_map]
      exact (Nat.max_eq_right (List.length_pos.mpr h)).symm
  · intro se hse
    by_cases h : (o.data.filter (fun oe => entryGet se skey = entryGet oe okey)) = []
    · refine ⟨dictUpdate ((scols.map (fun c => (c, PyVal.prim Prim.none)))
        ++ (ocols.map (fun c => (c, PyVal.prim Prim.none)))) se, ?_, ?_⟩
      · rw [List.mem_flatMap]
        exact ⟨se, hse, by rw [if_pos h]; exact List.mem_singleton_self _⟩
      · intro k hk
        exact nullRow_get_self (hhs se hse) hnds hk
    · obtain ⟨m, ms', hm⟩ := List.exists_cons_of_ne_nil h
      have hmem : m ∈ o.data.filter (fun oe => entryGet se skey = entryGet oe okey) := by
        rw [hm]
        exact List.mem_cons_self _ _
      refine ⟨dictUpdate (dictUpdate ((scols.map (fun c => (c, PyVal.prim Prim.none)))
        ++ (ocols.map (fun c => (c, PyVal.prim Prim.none)))) se) m, ?_, ?_⟩
      · rw [List.mem_flatMap]
        exact ⟨se, hse, by rw [if_neg h]; exact List.mem_map_of_mem _ hmem⟩
      · intro k hk
        exact mergedRow_get_self (hhs se hse) (hho m (List.mem_of_mem_filter hmem))
          hnds hndo hdisj hk
  · intro se hse oe hoe hmatch
    have hmem : oe ∈ o.data.filter (fun oe => entryGet se skey = entryGet oe okey) :=
      List.mem_filter.mpr ⟨hoe, decide_eq_true hmatch⟩
    have h : (o.data.filter (fun oe => entryGet se skey = entryGet oe okey)) ≠ [] := by
      intro hnil
      rw [hnil] at hmem
      exact absurd hmem (List.not_mem_nil _)
    refine ⟨dictUpdate (dictUpdate ((scols.map (fun c => (c, PyVal.prim Prim.none)))
      ++ (ocols.map (fun c => (c, PyVal.prim Prim.none)))) se) oe, ?_, ?_, ?_⟩
    · rw [List.mem_flatMap]
      exact ⟨se, hse, by rw [if_neg h]; exact List.mem_map_of_mem _ hmem⟩
    · intro k hk
      exact mergedRow_get_self (hhs se hse) (hho oe hoe) hnds hndo hdisj hk
    · intro k hk
      exact mergedRow_get_other (hhs se hse) (hho oe hoe) hnds hndo hk
  · intro se hse h
    refine ⟨dictUpdate ((scols.map (fun c => (c, PyVal.prim Prim.none)))
      ++ (ocols.map (fun c => (c, PyVal.prim Prim.none)))) se, ?_, ?_, ?_⟩
    · rw [List.mem_flatMap]
      exact ⟨se, hse, by rw [if_pos h]; exact List.mem_singleton_self _⟩
    · intro k hk
      exact nullRow_get_self (hhs se hse) hnds hk
    · intro k hk
      exact nullRow_get_other (hhs se hse) hnds hdisj hk
  · intro t2 o2 k1 k2 cs co hcs hco hbad
    rw [ResourceTable.merge, hcs, hco]
    by_cases h1 : k1 ∈ cs
    · by_cases h2 : k2 ∈ co
      · have hshared : ∃ c, c ∈ cs ∧ c ∈ co := by
          rcases hbad with hb | hb | hb
          · exact absurd h1 hb
          · exact absurd h2 hb
          · exact hb
        obtain ⟨c, hc1, hc2⟩ := hshared
        have hany : (cs.any (fun x => decide (x ∈ co))) = true :=
          List.any_eq_true.mpr ⟨c, hc1, decide_eq_true hc2⟩
        simp only [if_neg (not_not_intro h1), if_neg (not_not_intro h2), hany,
          if_pos rfl]
        rfl
      · simp only [if_neg (not_not_intro h1), if_pos h2]
        rfl
    · simp only [if_pos h1]
      rfl

/-- Witness for C1 at the specification scenario: process rows
`{pid:10, ppid:None}` and `{pid:11, ppid:10}` merged with the device row
`{device_pid:10, mem:500}` on `pid`/`device_pid` give 2 output rows. -/
theorem claim_C1_witness :
    ∃ r : ResourceTable,
      ResourceTable.merge
        ⟨[[("pid", PyVal.prim (Prim.int 10)), ("ppid", PyVal.prim Prim.none)],
          [("pid", PyVal.prim (Prim.int 11)), ("ppid", PyVal.prim (Prim.int 10))]]⟩
        ⟨[[("device_pid", PyVal.prim (Prim.int 10)), ("mem", PyVal.prim (Prim.int 500))]]⟩
        "pid" "device_pid" = .ok r
      ∧ r.data.length = 2 := by
  obtain ⟨r, hr, hlen, -⟩ := claim_C1_merge
    ⟨[[("pid", PyVal.prim (Prim.int 10)), ("ppid", PyVal.prim Prim.none)],
      [("pid", PyVal.prim (Prim.int 11)), ("ppid", PyVal.prim (Prim.int 10))]]⟩
    ⟨[[("device_pid", PyVal.prim (Prim.int 10)), ("mem", PyVal.prim (Prim.int 500))]]⟩
    "pid" "device_pid" ["pid", "ppid"] ["device_pid", "mem"]
    (by decide) (by decide) (by decide) (by decide) (by decide) (by decide)
    (by decide) (by decide) (by decide)
  refine ⟨r, hr, ?_⟩
  rw [hlen]
  decide

/-! ### Helper lemmas: unroll -/

theorem unrollEntry_ok {e : Entry} (h : (entryLens e).dedup.length = 1) :
    unrollEntry e = .ok (unrollSpecEntry e) := by
  rw [unrollEntry, unrollSpecEntry]
  rw [if_neg (not_not_intro h)]
  by_cases hn : (entryLens e).headD 0 = 0
  · rw [if_pos hn, if_pos hn]
  · rw [if_neg hn, if_neg hn]

theorem unrollEntry_isError_of_bad_lens {e : Entry}
    (h : (entryLens e).dedup.length ≠ 1) :
    exceptIsError (unrollEntry e) = true := by
  rw [unrollEntry, if_pos h]
  rfl

theorem mapM_except_ok {ε α β : Type} {f : α → Except ε β} {g : α → β} {l : List α}
    (h : ∀ x ∈ l, f x = .ok (g x)) : l.mapM f = .ok (l.map g) := by
  induction l with
  | nil => rfl
  | cons y ys ih =>
    rw [List.mapM_cons, h y (List.mem_cons_self _ _), except_bind_ok,
      ih (fun x hx => h x (List.mem_cons_of_mem _ hx)), except_bind_ok, List.map_cons]
    rfl

theorem unrollSpecEntry_length (e : Entry) :
    (unrollSpecEntry e).length = max 1 ((entryLens e).headD 0) := by
  rw [unrollSpecEntry]
  by_cases hn : (entryLens e).headD 0 = 0
  · rw [if_pos hn, hn]
    rfl
  · rw [if_neg hn, List.length_map, List.length_range]
    exact (Nat.max_eq_right (Nat.pos_of_ne_zero hn)).symm

/-- C4: when every entry passes the single-common-list-length check,
`unroll` succeeds and produces, in input-entry order, the concatenation of
the per-entry unrollings: one null row for common length 0, and for common
length n one row per index i carrying each list column's i-th element and
all non-list columns unchanged (`unrollSpecEntry` transcribes that
wording); each entry contributes max(1, n) rows; an entry failing the
check makes `unroll` raise the structural error. -/
theorem claim_C4_unroll (t : ResourceTable)
    (hall : ∀ e ∈ t.data, (entryLens e).dedup.length = 1) :
    t.unroll = .ok ⟨t.data.flatMap unrollSpecEntry⟩
    ∧ (t.data.flatMap unrollSpecEntry).length
        = (t.data.map (fun e => max 1 ((entryLens e).headD 0))).sum
    ∧ (∀ e ∈ t.data, (unrollSpecEntry e).length = max 1 ((entryLens e).headD 0))
    ∧ (∀ (t2 : ResourceTable) (e2 : Entry), e2 ∈ t2.data →
        (entryLens e2).dedup.length ≠ 1 → exceptIsError t2.unroll = true) := by
  refine ⟨?_, ?_, fun e _ => unrollSpecEntry_length e, ?_⟩
  · rw [ResourceTable.unroll,
      mapM_except_ok (fun e he => unrollEntry_ok (hall e he)), except_bind_ok,
      List.flatMap_def]
    rfl
  · rw [List.flatMap_def, List.length_flatten, List.map_map]
    apply congrArg List.sum
    apply List.map_congr_left
    intro e he
    exact unrollSpecEntry_length e
  · intro t2 e2 he2 hbad
    rw [ResourceTable.unroll]
    have herr := mapM_except_isError he2 (unrollEntry_isError_of_bad_lens hbad)
    cases hmr : t2.data.mapM unrollEntry with
    | error err => rw [except_bind_error]; rfl
    | ok rs => rw [hmr] at herr; cases herr

/-- Witness for C4: the one-entry table `{a: 7, b: [1, 2]}` unrolls into
two rows. -/
theorem claim_C4_witness :
    ResourceTable.unroll
        ⟨[[("a", PyVal.prim (Prim.int 7)), ("b", PyVal.list [Prim.int 1, Prim.int 2])]]⟩
      = .ok ⟨([[("a", PyVal.prim (Prim.int 7)),
          ("b", PyVal.list [Prim.int 1, Prim.int 2])]] : List Entry).flatMap
          unrollSpecEntry⟩ :=
  (claim_C4_unroll
    ⟨[[("a", PyVal.prim (Prim.int 7)), ("b", PyVal.list [Prim.int 1, Prim.int 2])]]⟩
    (by decide)).1

/-! ### Helper lemmas: set_index and split_by_index -/

theorem firstSeen_aux (l : List (Option PyVal)) : ∀ acc : List (Option PyVal),
    (∀ x, x ∈ l.foldl (fun acc v => if v ∈ acc then acc else acc ++ [v]) acc
      ↔ x ∈ acc ∨ x ∈ l)
    ∧ (acc.Nodup → (l.foldl (fun acc v => if v ∈ acc then acc else acc ++ [v]) acc).Nodup) := by
  induction l with
  | nil => intro acc; simp
  | cons v vs ih =>
    intro acc
    rw [List.foldl_cons]
    by_cases hv : v ∈ acc
    · rw [if_pos hv]
      refine ⟨fun x => ?_, fun hnd => (ih acc).2 hnd⟩
      rw [(ih acc).1 x, List.mem_cons]
      constructor
      · rintro (h | h)
        · exact Or.inl h
        · exact Or.inr (Or.inr h)
      · rintro (h | h | h)
        · exact Or.inl h
        · exact Or.inl (h ▸ hv)
        · exact Or.inr h
    · rw [if_neg hv]
      refine ⟨fun x => ?_, fun hnd => (ih (acc ++ [v])).2 ?_⟩
      · rw [(ih (acc ++ [v])).1 x, List.mem_append, List.mem_singleton, List.mem_cons]
        constructor
        · rintro ((h | h) | h)
          · exact Or.inl h
          · exact Or.inr (Or.inl h)
          · exact Or.inr (Or.inr h)
        · rintro (h | h | h)
          · exact Or.inl (Or.inl h)
          · exact Or.inl (Or.inr h)
          · exact Or.inr h
      · rw [List.nodup_append]
        refine ⟨hnd, List.nodup_singleton v, ?_⟩
        intro a ha hav
        rw [List.mem_singleton] at hav
        exact hv (hav ▸ ha)

theorem firstSeen_mem (l : List (Option PyVal)) (x : Option PyVal) :
    x ∈ firstSeen l ↔ x ∈ l := by
  rw [firstSeen, (firstSeen_aux l []).1 x]
  simp

theorem firstSeen_nodup (l : List (Option PyVal)) : (firstSeen l).Nodup :=
  (firstSeen_aux l []).2 List.nodup_nil

theorem filter_flatMap_comm {α β : Type} (f : β → List α) (p : α → Bool) (l : List β) :
    (l.flatMap f).filter p = l.flatMap (fun b => (f b).filter p) := by
  induction l with
  | nil => rfl
  | cons b bs ih => rw [List.flatMap_cons, List.flatMap_cons, List.filter_append, ih]

theorem flatMap_filter_eq {α β : Type} [DecidableEq β] (g : α → β) (vs : List β)
    (data : List α) (hnd : vs.Nodup) {v : β} (hv : v ∈ vs) :
    (vs.flatMap (fun w => data.filter (fun e => g e = w))).filter (fun e => g e = v)
      = data.filter (fun e => g e = v) := by
  induction vs with
  | nil => cases hv
  | cons w rest ih =>
    rw [List.flatMap_cons, List.filter_append]
    rw [List.nodup_cons] at hnd
    by_cases hwv : w = v
    · subst hwv
      have h1 : (data.filter (fun e => g e = w)).filter (fun e => g e = w)
          = data.filter (fun e => g e = w) := by
        rw [List.filter_filter]
        apply List.filter_congr
        intro x hx
        simp [Bool.and_self]
      have h2 : (rest.flatMap (fun u => data.filter (fun e => g e = u))).filter
          (fun e => g e = w) = [] := by
        rw [List.filter_eq_nil_iff]
        intro a ha
        rw [List.mem_flatMap] at ha
        obtain ⟨u, hu, hau⟩ := ha
        have : g a = u := of_decide_eq_true (List.mem_filter.mp hau).2
        simp only [decide_eq_true_eq]
        rw [this]
        intro huw
        exact hnd.1 (huw ▸ hu)
      rw [h1, h2, List.append_nil]
    · have h1 : (data.filter (fun e => g e = w)).filter (fun e => g e = v) = [] := by
        rw [List.filter_eq_nil_iff]
        intro a ha
        have : g a = w := of_decide_eq_true (List.mem_filter.mp ha).2
        simp only [decide_eq_true_eq]
        rw [this]
        exact hwv
      rcases List.mem_cons.mp hv with rfl | hv'
      · exact absurd rfl hwv
      · rw [h1, List.nil_append, ih hnd.2 hv']

theorem flatMap_filter_perm {α β : Type} [DecidableEq β] (g : α → β) :
    ∀ (vs : List β) (data : List α), vs.Nodup → (∀ e ∈ data, g e ∈ vs) →
    (vs.flatMap (fun v => data.filter (fun e => g e = v))).Perm data := by
  intro vs
  induction vs with
  | nil =>
    intro data _ hmem
    cases data with
    | nil => exact List.Perm.refl _
    | cons e es => exact absurd (hmem e (List.mem_cons_self _ _)) (List.not_mem_nil _)
  | cons v rest ih =>
    intro data hnd hmem
    rw [List.nodup_cons] at hnd
    rw [List.flatMap_cons]
    have hcongr : rest.flatMap (fun w => data.filter (fun e => g e = w))
        = rest.flatMap (fun w => (data.filter (fun e => ¬ (g e = v))).filter
            (fun e => g e = w)) := by
      rw [List.flatMap_def, List.flatMap_def]
      apply congrArg List.flatten
      apply List.map_congr_left
      intro w hw
      rw [List.filter_filter]
      apply List.filter_congr
      intro x hx
      by_cases hgx : g x = w
      · have hwv : ¬ (w = v) := fun h => hnd.1 (h ▸ hw)
        simp [hgx, hwv]
      · simp [hgx]
    have hperm2 : (rest.flatMap (fun w => (data.filter (fun e => ¬ (g e = v))).filter
        (fun e => g e = w))).Perm (data.filter (fun e => ¬ (g e = v))) := by
      apply ih
      · exact hnd.2
      · intro e he
        have hin := List.mem_of_mem_filter he
        have hne : ¬ (g e = v) := by
          have := (List.mem_filter.mp he).2
          simpa using this
        rcases List.mem_cons.mp (hmem e hin) with h | h
        · exact absurd h hne
        · exact h
    refine List.Perm.trans ?_ (List.filter_append_perm (fun e => g e = v) data)
    rw [hcongr]
    apply List.Perm.append_left
    refine List.Perm.trans hperm2 (List.Perm.of_eq ?_)
    apply List.filter_congr
    intro x hx
    simp

theorem set_index_index_values (t : ResourceTable) (idx : String) :
    (t.set_index idx).index_values = firstSeen (t.data.map (fun e => entryGet e idx)) := by
  show (t.data.foldl
    (fun acc e => if entryGet e idx ∈ acc then acc else acc ++ [entryGet e idx]) [])
    = firstSeen (t.data.map (fun e => entryGet e idx))
  rw [firstSeen, List.foldl_map]

theorem set_index_data (t : ResourceTable) (idx : String) :
    (t.set_index idx).data
      = (t.set_index idx).index_values.flatMap
          (fun v => t.data.filter (fun e => entryGet e idx = v)) := by
  show ((t.data.foldl
      (fun acc e => if entryGet e idx ∈ acc then acc else acc ++ [entryGet e idx])
      []).foldl (fun acc v => acc ++ t.data.filter (fun e => entryGet e idx = v)) [])
    = _
  rw [foldl_append_eq_flatMap, List.nil_append]
  rfl

/-- C6: `set_index` computes the distinct index values in first-seen order
(`firstSeen`, a duplicate-free list), reorders the rows into index-major
order — the concatenation, over the index values in that order, of the
original rows with that value, hence a permutation of the original rows
with each group keeping its original relative order — and `split_by_index`
returns exactly those groups in the same order; concretely, the index
sequence `[b, a, b, a]` yields `index_values = [b, a]`, and the table with
index column `["/a.ipynb", "/b.ipynb", "/a.ipynb"]` splits into 2 groups
of sizes 2 and 1, `/a.ipynb` first. -/
theorem claim_C6_set_index (t : ResourceTable) (idx : String) :
    (t.set_index idx).index_values = firstSeen (t.data.map (fun e => entryGet e idx))
    ∧ (t.set_index idx).index_values.Nodup
    ∧ (t.set_index idx).data
        = (t.set_index idx).index_values.flatMap
            (fun v => t.data.filter (fun e => entryGet e idx = v))
    ∧ (t.set_index idx).data.Perm t.data
    ∧ (t.set_index idx).split_by_index
        = (t.set_index idx).index_values.map
            (fun v => ResourceTable.mk (t.data.filter (fun e => entryGet e idx = v)))
    ∧ firstSeen [some (PyVal.prim (Prim.str "b")), some (PyVal.prim (Prim.str "a")),
          some (PyVal.prim (Prim.str "b")), some (PyVal.prim (Prim.str "a"))]
        = [some (PyVal.prim (Prim.str "b")), some (PyVal.prim (Prim.str "a"))]
    ∧ ((ResourceTable.mk [[("p", PyVal.prim (Prim.str "/a.ipynb"))],
          [("p", PyVal.prim (Prim.str "/b.ipynb"))],
          [("p", PyVal.prim (Prim.str "/a.ipynb"))]]).set_index "p").index_values
        = [some (PyVal.prim (Prim.str "/a.ipynb")), some (PyVal.prim (Prim.str "/b.ipynb"))]
    ∧ ((ResourceTable.mk [[("p", PyVal.prim (Prim.str "/a.ipynb"))],
          [("p", PyVal.prim (Prim.str "/b.ipynb"))],
          [("p", PyVal.prim (Prim.str "/a.ipynb"))]]).set_index "p").split_by_index.map
          (fun s => s.data.length) = [2, 1] := by
  have hiv := set_index_index_values t idx
  have hnd : (t.set_index idx).index_values.Nodup := by
    rw [hiv]
    exact firstSeen_nodup _
  have hmem : ∀ e ∈ t.data, entryGet e idx ∈ (t.set_index idx).index_values := by
    intro e he
    rw [hiv, firstSeen_mem]
    exact List.mem_map_of_mem _ he
  refine ⟨hiv, hnd, set_index_data t idx, ?_, ?_, by decide, by decide, by decide⟩
  · rw [set_index_data t idx]
    exact flatMap_filter_perm (fun e => entryGet e idx) _ t.data hnd hmem
  · show (t.set_index idx).index_values.map (t.set_index idx).get_subtable = _
    apply List.map_congr_left
    intro v hv
    show ResourceTable.mk ((t.set_index idx).data.filter
      (fun e => entryGet e (t.set_index idx).index = v)) = _
    apply congrArg ResourceTable.mk
    have hidx : (t.set_index idx).index = idx := rfl
    rw [hidx, set_index_data t idx]
    exact flatMap_filter_eq (fun e => entryGet e idx) _ t.data hnd hv

/-! ### Helper lemmas: sort -/

theorem lexLe_refl (a : List Int) : lexLe a a = true := by
  induction a with
  | nil => rfl
  | cons x xs ih =>
    rw [lexLe, if_neg (lt_irrefl x), if_neg (lt_irrefl x)]
    exact ih

theorem lexLe_total (a b : List Int) : lexLe a b || lexLe b a := by
  induction a generalizing b with
  | nil => rfl
  | cons x xs ih =>
    cases b with
    | nil => rfl
    | cons y ys =>
      rw [lexLe, lexLe]
      by_cases hxy : x < y
      · rw [if_pos hxy]
        rfl
      · rw [if_neg hxy]
        by_cases hyx : y < x
        · rw [if_pos hyx, if_pos hyx]
          rfl
        · rw [if_neg hyx, if_neg hyx, if_neg hxy]
          exact ih ys

theorem lexLe_trans (a : List Int) : ∀ b c : List Int,
    lexLe a b = true → lexLe b c = true → lexLe a c = true := by
  induction a with
  | nil => intro b c _ _; rfl
  | cons x xs ih =>
    intro b c h1 h2
    cases b with
    | nil => rw [lexLe] at h1; cases h1
    | cons y ys =>
      cases c with
      | nil => rw [lexLe] at h2; cases h2
      | cons z zs =>
        rw [lexLe] at h1 h2 ⊢
        by_cases hxy : x < y
        · by_cases hyz : y < z
          · rw [if_pos (lt_trans hxy hyz)]
          · rw [if_neg hyz] at h2
            by_cases hzy : z < y
            · rw [if_pos hzy] at h2; cases h2
            · have hyz' : y = z := le_antisymm (not_lt.mp hzy) (not_lt.mp hyz)
              rw [if_pos (hyz' ▸ hxy)]
        · rw [if_neg hxy] at h1
          by_cases hyx : y < x
          · rw [if_pos hyx] at h1; cases h1
          · have hxy' : x = y := le_antisymm (not_lt.mp hyx) (not_lt.mp hxy)
            rw [if_neg hyx] at h1
            by_cases hyz : y < z
            · rw [if_pos (hxy' ▸ hyz)]
            · rw [if_neg hyz] at h2
              by_cases hzy : z < y
              · rw [if_pos hzy] at h2; cases h2
              · rw [if_neg hzy] at h2
                rw [if_neg (hxy' ▸ hyz), if_neg (hxy' ▸ hzy)]
                exact ih ys zs h1 h2

/-- Stability of the embedded sort: rows with any fixed key tuple appear in
the sorted output exactly as they appear in the input. -/
theorem mergeSort_filter_key {α β : Type} [DecidableEq β] (κ : α → β)
    (lex : β → β → Bool)
    (hrefl : ∀ b, lex b b = true)
    (htrans : ∀ a b c, lex a b = true → lex b c = true → lex a c = true)
    (htotal : ∀ a b, lex a b || lex b a)
    (l : List α) (tup : β) :
    (List.mergeSort l (fun a b => lex (κ a) (κ b))).filter (fun e => κ e = tup)
      = l.filter (fun e => κ e = tup) := by
  have hsub : List.Sublist (l.filter (fun e => κ e = tup))
      (List.mergeSort l (fun a b => lex (κ a) (κ b))) := by
    apply List.sublist_mergeSort
      (fun a b c => htrans (κ a) (κ b) (κ c)) (fun a b => htotal (κ a) (κ b))
    · apply List.pairwise_of_forall_mem_list
      intro a ha b hb
      have ha' : κ a = tup := of_decide_eq_true (List.mem_filter.mp ha).2
      have hb' : κ b = tup := of_decide_eq_true (List.mem_filter.mp hb).2
      rw [ha', hb']
      exact hrefl tup
    · exact List.filter_sublist l
  have hsub2 : List.Sublist
      ((l.filter (fun e => κ e = tup)).filter (fun e => κ e = tup))
      ((List.mergeSort l (fun a b => lex (κ a) (κ b))).filter (fun e => κ e = tup)) :=
    List.Sublist.filter _ hsub
  rw [List.filter_filter] at hsub2
  have hidem : l.filter (fun a => decide (κ a = tup) && decide (κ a = tup))
      = l.filter (fun e => κ e = tup) := by
    apply List.filter_congr
    intro x hx
    rw [Bool.and_self]
  rw [hidem] at hsub2
  have hperm : ((List.mergeSort l (fun a b => lex (κ a) (κ b))).filter
      (fun e => κ e = tup)).Perm (l.filter (fun e => κ e = tup)) :=
    (List.mergeSort_perm l _).filter _
  exact (hsub2.eq_of_length hperm.length_eq.symm).symm

/-- C5: `sort` is a permutation of the rows, sorted lexicographically by
the `itemgetter` tuples — which replace null cells by the per-key default
and multiply by -1 exactly the reversed keys (spelled out in the fourth
conjunct) — and stable: rows with equal sort tuples keep their relative
input order; `[{a: None}, {a: 1}]` with default 0 keeps the `None` row
first; and per-key reverse is not a final reversal of the whole order. -/
theorem claim_C5_sort (t : ResourceTable) (keys : List String) (defaults : List Int)
    (revs : List Bool) :
    (t.sort keys defaults revs).data.Perm t.data
    ∧ (t.sort keys defaults revs).data.Pairwise
        (fun a b => lexLe (itemgetter keys defaults revs a)
          (itemgetter keys defaults revs b) = true)
    ∧ (∀ tup : List Int,
        (t.sort keys defaults revs).data.filter
            (fun e => itemgetter keys defaults revs e = tup)
          = t.data.filter (fun e => itemgetter keys defaults revs e = tup))
    ∧ itemgetter keys defaults revs = (fun e => (keys.zip (defaults.zip revs)).map
        (fun kdr => (if kdr.2.2 then -1 else 1) * (match entryGet e kdr.1 with
          | some (PyVal.prim Prim.none) => kdr.2.1
          | some (PyVal.prim (Prim.int n)) => n
          | _ => 0)))
    ∧ ResourceTable.sort1
        ⟨[[("a", PyVal.prim Prim.none)], [("a", PyVal.prim (Prim.int 1))]]⟩ "a" 0 false
      = ⟨[[("a", PyVal.prim Prim.none)], [("a", PyVal.prim (Prim.int 1))]]⟩
    ∧ ResourceTable.sort
        ⟨[[("a", PyVal.prim (Prim.int 1)), ("b", PyVal.prim (Prim.int 1))],
          [("a", PyVal.prim (Prim.int 1)), ("b", PyVal.prim (Prim.int 2))]]⟩
        ["a", "b"] [0, 0] [true, false]
      ≠ ResourceTable.mk (ResourceTable.sort
        ⟨[[("a", PyVal.prim (Prim.int 1)), ("b", PyVal.prim (Prim.int 1))],
          [("a", PyVal.prim (Prim.int 1)), ("b", PyVal.prim (Prim.int 2))]]⟩
        ["a", "b"] [0, 0] [false, false]).data.reverse := by
  refine ⟨List.mergeSort_perm t.data _, ?_, ?_, rfl, ?_, ?_⟩
  · exact List.sorted_mergeSort
      (fun (a b c : Entry) h1 h2 =>
        lexLe_trans (itemgetter keys defaults revs a) (itemgetter keys defaults revs b)
          (itemgetter keys defaults revs c) h1 h2)
      (fun (a b : Entry) =>
        lexLe_total (itemgetter keys defaults revs a) (itemgetter keys defaults revs b))
      t.data
  · intro tup
    exact mergeSort_filter_key (itemgetter keys defaults revs) lexLe lexLe_refl
      lexLe_trans lexLe_total t.data tup
  · show ResourceTable.mk (List.mergeSort _ _) = _
    rw [List.mergeSort_of_sorted (List.pairwise_pair.mpr (by decide))]
  · have h1 : ResourceTable.sort
        ⟨[[("a", PyVal.prim (Prim.int 1)), ("b", PyVal.prim (Prim.int 1))],
          [("a", PyVal.prim (Prim.int 1)), ("b", PyVal.prim (Prim.int 2))]]⟩
        ["a", "b"] [0, 0] [true, false]
        = ⟨[[("a", PyVal.prim (Prim.int 1)), ("b", PyVal.prim (Prim.int 1))],
            [("a", PyVal.prim (Prim.int 1)), ("b", PyVal.prim (Prim.int 2))]]⟩ := by
      show ResourceTable.mk (List.mergeSort _ _) = _
      rw [List.mergeSort_of_sorted (List.pairwise_pair.mpr (by decide))]
    have h2 : ResourceTable.sort
        ⟨[[("a", PyVal.prim (Prim.int 1)), ("b", PyVal.prim (Prim.int 1))],
          [("a", PyVal.prim (Prim.int 1)), ("b", PyVal.prim (Prim.int 2))]]⟩
        ["a", "b"] [0, 0] [false, false]
        = ⟨[[("a", PyVal.prim (Prim.int 1)), ("b", PyVal.prim (Prim.int 1))],
            [("a", PyVal.prim (Prim.int 1)), ("b", PyVal.prim (Prim.int 2))]]⟩ := by
      show ResourceTable.mk (List.mergeSort _ _) = _
      rw [List.mergeSort_of_sorted (List.pairwise_pair.mpr (by decide))]
    rw [h1, h2]
    decide

/-! ### Helper lemmas: included_only -/

theorem collapseStep_ne_nil (racc : List FItem) (c : FItem) :
    collapseStep racc c ≠ [] := by
  cases racc with
  | nil => exact List.cons_ne_nil _ _
  | cons p rest =>
    rw [collapseStep]
    by_cases h : isDelim c.1 && isDelim p.1
    · rw [if_pos h]
      exact List.cons_ne_nil _ _
    · rw [if_neg h]
      exact List.cons_ne_nil _ _

theorem foldl_collapseStep_ne_nil (cs : List FItem) : ∀ racc : List FItem,
    racc ≠ [] → cs.foldl collapseStep racc ≠ [] := by
  induction cs with
  | nil => intro racc h; exact h
  | cons c cs ih =>
    intro racc _
    rw [List.foldl_cons]
    exact ih _ (collapseStep_ne_nil racc c)

/-- The loop of `included_only` only ever inspects and modifies the most
recent item: the rest of the accumulator rides along. -/
theorem foldl_collapseStep_append (cs : List FItem) : ∀ (x : FItem) (ys : List FItem),
    cs.foldl collapseStep (x :: ys) = cs.foldl collapseStep [x] ++ ys := by
  induction cs with
  | nil => intro x ys; rfl
  | cons c cs ih =>
    intro x ys
    rw [List.foldl_cons, List.foldl_cons]
    rw [collapseStep, collapseStep]
    by_cases h : isDelim c.1 && isDelim x.1
    · rw [if_pos h, if_pos h]
      exact ih _ ys
    · rw [if_neg h, if_neg h]
      rw [ih c (x :: ys), ih c [x], List.append_assoc]
      rfl

theorem rankOf_maxDelim {rc rx : Nat} :
    rankOf (maxDelim (FColumn.delim rc) (FColumn.delim rx)) = Nat.max rc rx := by
  rw [maxDelim]
  by_cases h : rc < rx
  · rw [if_pos h, rankOf]
    exact (Nat.max_eq_right (Nat.le_of_lt h)).symm
  · rw [if_neg h, rankOf]
    exact (Nat.max_eq_left (Nat.le_of_not_lt h)).symm

theorem isDelim_iff_exists (c : FColumn) : isDelim c = true ↔ ∃ r, c = FColumn.delim r := by
  cases c with
  | delim r => simp [isDelim]
  | res s => simp [isDelim]

/-- Collapsing after first merging two leading delimiters is the same as
collapsing the original list: the run maximum absorbs the pairwise merge. -/
theorem specCollapse_merge_head {x c : FItem} (cs' : List FItem)
    (hx : isDelim x.1 = true) (hc : isDelim c.1 = true) :
    specCollapse ((maxDelim c.1 x.1, x.2) :: cs') = specCollapse (x :: c :: cs') := by
  obtain ⟨rx, hrx⟩ := (isDelim_iff_exists x.1).mp hx
  obtain ⟨rc, hrc⟩ := (isDelim_iff_exists c.1).mp hc
  have hm : isDelim (maxDelim c.1 x.1) = true := by
    rw [hrc, hrx, maxDelim]
    by_cases h : rc < rx
    · rw [if_pos h]; rfl
    · rw [if_neg h]; rfl
  have htw : (c :: cs').takeWhile (fun y => isDelim y.1) = c :: cs'.takeWhile (fun y => isDelim y.1) := by
    rw [List.takeWhile_cons, if_pos hc]
  have hdw : (c :: cs').dropWhile (fun y => isDelim y.1) = cs'.dropWhile (fun y => isDelim y.1) := by
    rw [List.dropWhile_cons, if_pos hc]
  rw [specCollapse, specCollapse]
  simp only [hm, hx, if_true, htw, hdw]
  congr 2
  rw [List.map_cons, List.map_cons, List.map_cons, List.foldl_cons, List.foldl_cons,
    List.foldl_cons, hrc, hrx, rankOf_maxDelim]
  have hstart : Nat.max 0 (Nat.max rc rx)
      = Nat.max (Nat.max 0 (rankOf (FColumn.delim rx))) (rankOf (FColumn.delim rc)) := by
    simp only [rankOf, Nat.zero_max]
    exact Nat.max_comm _ _
  exact congrArg (fun s => FColumn.delim (List.foldl Nat.max s
    (List.map (fun y => rankOf y.1) (List.takeWhile (fun y => isDelim y.1) cs')))) hstart

theorem delim_zero_max_eta {x : FItem} (hx : isDelim x.1 = true) :
    ((FColumn.delim (Nat.max 0 (rankOf x.1)), x.2) : FItem) = x := by
  obtain ⟨r, hr⟩ := (isDelim_iff_exists x.1).mp hx
  have hz : Nat.max 0 r = r := Nat.max_eq_right (Nat.zero_le r)
  rw [hr, rankOf, hz]
  rw [show x = (x.1, x.2) from rfl, hr]

/-- The accumulating loop of `included_only`, read back in order, computes
the specification-side run collapse. -/
theorem foldl_collapseStep_spec (cs : List FItem) : ∀ x : FItem,
    (cs.foldl collapseStep [x]).reverse = specCollapse (x :: cs) := by
  induction cs with
  | nil =>
    intro x
    rw [List.foldl_nil]
    by_cases hx : isDelim x.1
    · rw [specCollapse, if_pos hx]
      rw [List.takeWhile_nil, List.dropWhile_nil, List.map_cons, List.map_nil,
        List.foldl_cons, List.foldl_nil]
      rw [specCollapse, delim_zero_max_eta hx]
      rfl
    · rw [specCollapse, if_neg hx, specCollapse]
      rfl
  | cons c cs ih =>
    intro x
    rw [List.foldl_cons, collapseStep]
    by_cases h : isDelim c.1 && isDelim x.1
    · rw [if_pos h]
      rw [ih (maxDelim c.1 x.1, x.2)]
      obtain ⟨hc, hx⟩ := Bool.and_eq_true_iff.mp h
      exact specCollapse_merge_head cs hx hc
    · rw [if_neg h]
      rw [foldl_collapseStep_append, List.reverse_append, ih c]
      by_cases hx : isDelim x.1
      · have hc : isDelim c.1 = false := by
          cases hdc : isDelim c.1
          · rfl
          · exact absurd (by rw [hdc, hx]; rfl) h
        conv_rhs => rw [specCollapse]
        rw [if_pos hx, List.takeWhile_cons, if_neg (by rw [hc]; exact
          Bool.false_ne_true), List.dropWhile_cons, if_neg (by rw [hc]; exact
          Bool.false_ne_true)]
        rw [List.map_cons, List.map_nil, List.foldl_cons, List.foldl_nil,
          delim_zero_max_eta hx]
        rfl
      · conv_rhs => rw [specCollapse]
        rw [if_neg hx]
        rfl

/-- With at least one included column, `included_only` succeeds and equals
the specification-side collapse-then-pop-trailing-delimiter. -/
theorem included_only_eq_spec (f : List FItem) (hne : f.filter (fun c => c.2) ≠ []) :
    included_only f = some (specIncludedOnly f) := by
  obtain ⟨c0, cs, hf⟩ := List.exists_cons_of_ne_nil hne
  have hr := foldl_collapseStep_ne_nil cs [c0] (List.cons_ne_nil _ _)
  obtain ⟨last, rest, hracc⟩ := List.exists_cons_of_ne_nil hr
  have hspec : specCollapse (c0 :: cs) = rest.reverse ++ [last] := by
    rw [← foldl_collapseStep_spec, hracc, List.reverse_cons]
  rw [included_only, specIncludedOnly, hf, List.foldl_cons]
  have h0 : collapseStep [] c0 = [c0] := rfl
  rw [h0, hracc, hspec]
  rw [List.getLast?_concat]
  show some ((if isDelim last.1 then rest else last :: rest).reverse)
    = some (if isDelim last.1 then (rest.reverse ++ [last]).dropLast
        else rest.reverse ++ [last])
  by_cases hl : isDelim last.1
  · rw [if_pos hl, if_pos hl, List.dropLast_concat]
  · rw [if_neg hl, if_neg hl]
    rw [show (last :: rest).reverse = rest.reverse ++ [last] from List.reverse_cons _ _]

theorem head_dropWhile_nondelim (l : List FItem) :
    ∀ hd, (l.dropWhile (fun y => isDelim y.1)).head? = some hd → isDelim hd.1 = false := by
  induction l with
  | nil => intro hd h; cases h
  | cons c cs ih =>
    intro hd h
    rw [List.dropWhile_cons] at h
    by_cases hc : isDelim c.1
    · rw [if_pos hc] at h
      exact ih hd h
    · rw [if_neg hc] at h
      rw [List.head?_cons] at h
      obtain rfl : c = hd := Option.some.inj h
      exact Bool.not_eq_true _ ▸ hc

theorem head_specCollapse_nondelim {cs : List FItem}
    (h : ∀ hd, cs.head? = some hd → isDelim hd.1 = false) :
    ∀ hd', (specCollapse cs).head? = some hd' → isDelim hd'.1 = false := by
  cases cs with
  | nil =>
    intro hd' h'
    rw [specCollapse] at h'
    cases h'
  | cons c cs' =>
    intro hd' h'
    have hc : isDelim c.1 = false := h c rfl
    rw [specCollapse, if_neg (by rw [hc]; exact Bool.false_ne_true)] at h'
    rw [List.head?_cons] at h'
    obtain rfl : c = hd' := Option.some.inj h'
    exact hc

theorem chain_specCollapse (cs : List FItem) :
    (specCollapse cs).Chain' (fun a b => ¬(isDelim a.1 = true ∧ isDelim b.1 = true)) := by
  induction cs using specCollapse.induct with
  | case1 =>
    rw [specCollapse]
    exact List.chain'_nil
  | case2 c cs hc ih =>
    rw [specCollapse, if_pos hc]
    refine List.chain'_cons'.mpr ⟨?_, ih⟩
    intro y hy
    have hnd := head_specCollapse_nondelim (head_dropWhile_nondelim cs) y
      (Option.mem_def.mp hy)
    rintro ⟨-, hdy⟩
    rw [hnd] at hdy
    cases hdy
  | case3 c cs hc ih =>
    rw [specCollapse, if_neg hc]
    refine List.chain'_cons'.mpr ⟨?_, ih⟩
    intro y hy
    rintro ⟨hdc, -⟩
    exact hc hdc

theorem filter_nondelim_dropWhile (cs : List FItem) :
    (cs.dropWhile (fun y => isDelim y.1)).filter (fun d => !(isDelim d.1))
      = cs.filter (fun d => !(isDelim d.1)) := by
  induction cs with
  | nil => rfl
  | cons c cs ih =>
    rw [List.dropWhile_cons]
    by_cases hc : isDelim c.1
    · rw [if_pos hc, ih, List.filter_cons]
      rw [if_neg (by rw [hc]; exact fun hctr => Bool.false_ne_true hctr)]
    · rw [if_neg hc]

theorem filter_specCollapse (cs : List FItem) :
    (specCollapse cs).filter (fun d => !(isDelim d.1))
      = cs.filter (fun d => !(isDelim d.1)) := by
  induction cs using specCollapse.induct with
  | case1 => rw [specCollapse]
  | case2 c cs hc ih =>
    rw [specCollapse, if_pos hc]
    rw [List.filter_cons_of_neg (fun hctr => Bool.false_ne_true hctr)]
    rw [ih, filter_nondelim_dropWhile,
      List.filter_cons_of_neg (by rw [hc]; exact fun hctr => Bool.false_ne_true hctr)]
  | case3 c cs hc ih =>
    rw [specCollapse, if_neg hc, List.filter_cons, List.filter_cons, ih]

theorem chain'_last_pair {R : FItem → FItem → Prop} {L : List FItem} {y c : FItem}
    (hch : L.Chain' R) (hL : L.getLast? = some c) (hy : L.dropLast.getLast? = some y) :
    R y c := by
  obtain ⟨L0, rfl⟩ := List.getLast?_eq_some_iff.mp hL
  rw [List.dropLast_concat] at hy
  obtain ⟨L1, rfl⟩ := List.getLast?_eq_some_iff.mp hy
  have h2 : List.Chain' R ([y] ++ [c]) := by
    have h3 := hch
    rw [List.append_assoc] at h3
    exact h3.right_of_append
  exact List.chain'_pair.mp (by simpa using h2)

theorem specIncludedOnly_props (f : List FItem) :
    (∀ x, (specIncludedOnly f).getLast? = some x → isDelim x.1 = false)
    ∧ (specIncludedOnly f).Chain' (fun a b => ¬(isDelim a.1 = true ∧ isDelim b.1 = true))
    ∧ (specIncludedOnly f).filter (fun d => !(isDelim d.1))
        = (f.filter (fun c => c.2)).filter (fun d => !(isDelim d.1)) := by
  have hch := chain_specCollapse (f.filter (fun c => c.2))
  have hfil := filter_specCollapse (f.filter (fun c => c.2))
  cases hlast : (specCollapse (f.filter (fun c => c.2))).getLast? with
  | none =>
    have h0 : specIncludedOnly f = specCollapse (f.filter (fun c => c.2)) := by
      rw [specIncludedOnly, hlast]
    rw [h0]
    refine ⟨?_, hch, hfil⟩
    intro x hx
    rw [hlast] at hx
    cases hx
  | some c =>
    have h0 : specIncludedOnly f
        = if isDelim c.1 = true then (specCollapse (f.filter (fun c => c.2))).dropLast
          else specCollapse (f.filter (fun c => c.2)) := by
      rw [specIncludedOnly, hlast]
    rw [h0]
    by_cases hc : isDelim c.1
    · rw [if_pos hc]
      obtain ⟨L0, hL0⟩ := List.getLast?_eq_some_iff.mp hlast
      refine ⟨?_, ?_, ?_⟩
      · intro x hx
        have hrel := chain'_last_pair hch hlast hx
        cases hdx : isDelim x.1
        · rfl
        · exact absurd ⟨hdx, hc⟩ hrel
      · rw [hL0, List.dropLast_concat]
        have := hch
        rw [hL0] at this
        exact this.left_of_append
      · rw [hL0, List.dropLast_concat]
        rw [hL0, List.filter_append] at hfil
        have hone : List.filter (fun d => !(isDelim d.1)) [c] = [] := by
          rw [List.filter_cons]
          rw [if_neg (by rw [hc]; exact fun hctr => Bool.false_ne_true hctr)]
          rfl
        rw [hone, List.append_nil] at hfil
        exact hfil
    · rw [if_neg hc]
      refine ⟨?_, hch, hfil⟩
      intro x hx
      obtain rfl : c = x := Option.some.inj (hlast ▸ hx)
      exact Bool.not_eq_true _ ▸ hc

/-- C7 counterexample: a formatter whose first included column is a table
delimiter keeps that delimiter at the start of `included_only` — the code
pops a trailing delimiter but never a leading one, so the result CAN start
with a delimiter. -/
theorem claim_C7_counterexample :
    included_only [(FColumn.delim 1, true), (FColumn.res "NAME", true)]
      = some [(FColumn.delim 1, true), (FColumn.res "NAME", true)]
    ∧ isDelim (FColumn.delim 1) = true := by
  exact ⟨by decide, rfl⟩

/-- C7 (amended): for a formatter with at least one included column,
`included_only` succeeds and equals the specification-side collapse
(`specIncludedOnly`: each maximal run of included delimiters becomes one
delimiter of the run's maximal rank, then one trailing delimiter is
popped); the result never ends with a delimiter, contains no two adjacent
delimiters, and keeps all included non-delimiter columns in order. It may,
however, start with a delimiter. -/
theorem claim_C7_included_only (f : List FItem) (hne : f.filter (fun c => c.2) ≠ []) :
    ∃ l, included_only f = some l
      ∧ l = specIncludedOnly f
      ∧ (∀ x, l.getLast? = some x → isDelim x.1 = false)
      ∧ l.Chain' (fun a b => ¬(isDelim a.1 = true ∧ isDelim b.1 = true))
      ∧ l.filter (fun d => !(isDelim d.1))
          = (f.filter (fun c => c.2)).filter (fun d => !(isDelim d.1)) := by
  obtain ⟨h1, h2, h3⟩ := specIncludedOnly_props f
  exact ⟨specIncludedOnly f, included_only_eq_spec f hne, rfl, h1, h2, h3⟩

/-- Witness for C7 on a formatter with a delimiter run `[D1, D2]`, an
excluded column and a trailing delimiter. -/
theorem claim_C7_witness :
    ∃ l, included_only [(FColumn.res "NAME", true), (FColumn.delim 1, true),
        (FColumn.delim 2, true), (FColumn.res "PID", false),
        (FColumn.res "RSS", true), (FColumn.delim 1, true)]
      = some l
      ∧ l = specIncludedOnly [(FColumn.res "NAME", true), (FColumn.delim 1, true),
        (FColumn.delim 2, true), (FColumn.res "PID", false),
        (FColumn.res "RSS", true), (FColumn.delim 1, true)] := by
  obtain ⟨l, h1, h2, -⟩ := claim_C7_included_only
    [(FColumn.res "NAME", true), (FColumn.delim 1, true),
     (FColumn.delim 2, true), (FColumn.res "PID", false),
     (FColumn.res "RSS", true), (FColumn.delim 1, true)] (by decide)
  exact ⟨l, h1, h2⟩
